import Mathlib

/-!
Verification of the store-and-cache core of a supply-chain auditing tool
(cargo-vet `storage.rs`): a shallow embedding of the data model, the import
reconciler (`process_imported_audits`), store validation (`Store::validate`),
the foreign-audit-file sanitizer (`foreign_audit_file_to_local`), tarball
unpacking (`unpack_package`), and `Store::clone_for_suggest`, together with
theorems settling the frozen claims about them.

Maps in the source are `SortedMap` (BTreeMap) values; they are embedded as
association lists, with key-uniqueness taken as a hypothesis where a theorem
needs it.  Types from the repository's `format.rs` / `criteria.rs` modules
(which are outside the provided source) are modelled from the spec, and each
such definition says so in its doc comment.
-/

namespace CargoVet

abbrev CriteriaName := String
abbrev PackageName := String
abbrev ImportName := String

def SAFE_TO_RUN : String := "safe-to-run"
def SAFE_TO_DEPLOY : String := "safe-to-deploy"

/-- Association-list embedding of the source's `SortedMap` (a BTreeMap). -/
abbrev SMap (α : Type) := List (String × α)

/-- `BTreeMap::get`. -/
def smGet {α : Type} (m : SMap α) (k : String) : Option α :=
  match m with
  | [] => none
  | p :: rest => if p.1 = k then some p.2 else smGet rest k

/-- `BTreeMap::keys`. -/
def smKeys {α : Type} (m : SMap α) : List String :=
  m.map (fun p => p.1)

/-- `BTreeMap::insert` (replaces the binding if the key is present). -/
def smInsert {α : Type} (m : SMap α) (k : String) (v : α) : SMap α :=
  match m with
  | [] => [(k, v)]
  | p :: rest => if p.1 = k then (k, v) :: rest else p :: smInsert rest k v

/-- `BTreeMap::remove`. -/
def smRemove {α : Type} (m : SMap α) (k : String) : SMap α :=
  m.filter (fun p => p.1 != k)

/-- Update the value bound to `k`, if present (`BTreeMap::get_mut`). -/
def smUpdate {α : Type} (m : SMap α) (k : String) (f : α → α) : SMap α :=
  match m with
  | [] => []
  | p :: rest => if p.1 = k then (p.1, f p.2) :: rest else p :: smUpdate rest k f

/-- Map a function over the values of a map. -/
def smMapVal {α β : Type} (f : α → β) (m : SMap α) : SMap β :=
  m.map (fun p => (p.1, f p.2))

/-- Calendar date, standing in for `chrono::NaiveDate`. -/
structure Date where
  year : Int
  month : Nat
  day : Nat
deriving DecidableEq, Repr

def isLeap (y : Int) : Bool :=
  y % 4 = 0 && (y % 100 != 0 || y % 400 = 0)

def daysInMonth (y : Int) (m : Nat) : Nat :=
  if m = 2 then (if isLeap y then 29 else 28)
  else if m = 4 || m = 6 || m = 9 || m = 11 then 30
  else 31

/-- Strict lexicographic order on dates (`chrono::NaiveDate` comparison). -/
def Date.blt (a b : Date) : Bool :=
  if a.year != b.year then decide (a.year < b.year)
  else if a.month != b.month then decide (a.month < b.month)
  else decide (a.day < b.day)

/-- Modelled from the spec: `today + chrono::Months::new(12)` (the `chrono`
crate is external).  Adding twelve months increments the year and clamps the
day to the length of the resulting month. -/
def Date.addMonths12 (d : Date) : Date :=
  { year := d.year + 1, month := d.month, day := min d.day (daysInMonth (d.year + 1) d.month) }

/-- Modelled from the spec: `CriteriaEntry` from the repository's `format.rs`
(optional description, optional description URL, and an `implies` list). -/
structure CriteriaEntry where
  description : Option String
  description_url : Option String
  implies : List CriteriaName
deriving DecidableEq, Repr

/-- Modelled from the spec: the three audit-entry variants (tagged `kind`). -/
inductive AuditKind where
  | full (version : String)
  | delta (fromVersion toVersion : String)
  | violation (violation : String)
deriving DecidableEq, Repr

/-- Modelled from the spec: `AuditEntry` from `format.rs`; carries a criteria
list, an optional author list, notes, and the `is_fresh_import` flag (which is
not persisted to disk). -/
structure AuditEntry where
  kind : AuditKind
  criteria : List CriteriaName
  who : List String
  notes : Option String
  is_fresh_import : Bool
deriving DecidableEq, Repr

/-- Modelled from the spec: `WildcardEntry` from `format.rs`.  The source field
`end` is spelled `end_date` here because `end` is a Lean keyword. -/
structure WildcardEntry where
  criteria : List CriteriaName
  user_id : Nat
  start : Date
  end_date : Date
  who : List String
  notes : Option String
  is_fresh_import : Bool
deriving DecidableEq, Repr

/-- Modelled from the spec: `AuditsFile` (criteria definitions, wildcard
audits per package, audit entries per package). -/
structure AuditsFile where
  criteria : SMap CriteriaEntry
  wildcard_audits : SMap (List WildcardEntry)
  audits : SMap (List AuditEntry)
deriving DecidableEq, Repr

/-- Modelled from the spec: one import configuration (URL, `exclude` set, and
`criteria_map` from foreign criteria names to lists of local names). -/
structure RemoteImport where
  url : String
  exclude : List PackageName
  criteria_map : SMap (List CriteriaName)
deriving DecidableEq, Repr

/-- Modelled from the spec: a cached publisher record. -/
structure CratesPublisher where
  version : String
  user_id : Nat
  user_login : String
  user_name : Option String
  when : Date
  is_fresh_import : Bool
deriving DecidableEq, Repr

/-- Modelled from the spec: the imports-lock document. -/
structure ImportsFile where
  publisher : SMap (List CratesPublisher)
  audits : SMap AuditsFile
deriving DecidableEq, Repr

/-- Modelled from the spec: one exemption entry `{version, criteria, suggest, notes}`. -/
structure ExemptedDependency where
  version : String
  criteria : List CriteriaName
  suggest : Bool
  notes : Option String
deriving DecidableEq, Repr

/-- Modelled from the spec: one policy entry (criteria, dev-criteria and
dependency-criteria overrides). -/
structure PolicyEntry where
  criteria : Option (List CriteriaName)
  dev_criteria : Option (List CriteriaName)
  dependency_criteria : SMap (List CriteriaName)
deriving DecidableEq, Repr

/-- Modelled from the spec: the config document. Policy entries are iterated
as `(name, version, policy)` triples in `Store::validate`. -/
structure ConfigFile where
  default_criteria : String
  imports : SMap RemoteImport
  policy : List (String × Option String × PolicyEntry)
  exemptions : SMap (List ExemptedDependency)
deriving DecidableEq, Repr

/-- The `Store`: the exclusive lock (modelled as `Option Unit`), the three
documents, the optional live imports, and the retained source text of each
document. -/
structure Store where
  lock : Option Unit
  config : ConfigFile
  imports : ImportsFile
  audits : AuditsFile
  live_imports : Option ImportsFile
  config_src : String
  imports_src : String
  audits_src : String
deriving DecidableEq, Repr

/-! ## Criteria mapper (modelled from spec section 4.3; `criteria.rs` is outside the source) -/

/-- Modelled from the spec: `CriteriaMapper::all_criteria_names` — the stable
vocabulary of a mapper built from a criteria table; the two reserved names are
always present. -/
def allCriteriaNames (criteria : SMap CriteriaEntry) : List CriteriaName :=
  smKeys criteria ++ ([SAFE_TO_RUN, SAFE_TO_DEPLOY]).filter (fun c => !(smKeys criteria).contains c)

/-- Modelled from the spec: `CriteriaMapper::criteria_from_list` — the bitset
over the vocabulary holding the listed names; represented canonically as the
sub-list of the vocabulary whose members occur in the list. -/
def criteriaFromList (vocab : List CriteriaName) (names : List CriteriaName) : List CriteriaName :=
  vocab.filter (fun c => names.contains c)

/-- Modelled from the spec: in-place bitset union, in the same canonical
representation. -/
def unionCriteria (vocab : List CriteriaName) (a b : List CriteriaName) : List CriteriaName :=
  vocab.filter (fun c => a.contains c || b.contains c)

/-- The resolved local criteria set for one foreign criteria name
(`foreign_to_local_mapping` in `process_imported_audits`): the config's
`criteria_map` entry takes precedence, then the two reserved names map to
themselves, and any other name maps to no criteria. -/
def resolveForeign (localVocab : List CriteriaName) (config : RemoteImport)
    (foreignName : CriteriaName) : List CriteriaName :=
  match smGet config.criteria_map foreignName with
  | some mapped => criteriaFromList localVocab mapped
  | none =>
    if foreignName = SAFE_TO_DEPLOY then criteriaFromList localVocab [SAFE_TO_DEPLOY]
    else if foreignName = SAFE_TO_RUN then criteriaFromList localVocab [SAFE_TO_RUN]
    else []

/-- `make_criteria_local` from `process_imported_audits`: compute the foreign
bitset of the entry's criteria list, union the per-name resolved local sets,
and emit the local criteria names. -/
def makeCriteriaLocal (foreignVocab localVocab : List CriteriaName) (config : RemoteImport)
    (criteria : List CriteriaName) : List CriteriaName :=
  (criteriaFromList foreignVocab criteria).foldl
    (fun acc f => unionCriteria localVocab acc (resolveForeign localVocab config f)) []

/-! ## Freshness marking -/

/-- Clearing the freshness flag of an audit entry. -/
def AuditEntry.eraseFresh (e : AuditEntry) : AuditEntry :=
  { e with is_fresh_import := false }

/-- Modelled from the spec: `AuditEntry::same_audit_as` — structural
equivalence ignoring the freshness flag. -/
def AuditEntry.same_audit_as (a b : AuditEntry) : Bool :=
  a.eraseFresh == b.eraseFresh

/-- Clearing the freshness flag of a wildcard entry. -/
def WildcardEntry.eraseFresh (e : WildcardEntry) : WildcardEntry :=
  { e with is_fresh_import := false }

/-- Modelled from the spec: `WildcardEntry::same_audit_as` — structural
equivalence ignoring the freshness flag. -/
def WildcardEntry.same_audit_as (a b : WildcardEntry) : Bool :=
  a.eraseFresh == b.eraseFresh

/-- One step of the freshness-marking loop of `process_imported_audits`:
scan the new entries for the first fresh one structurally equal (ignoring the
flag, i.e. equal after `erase`) to the existing audit `x`, and clear its flag.
Generic over the entry type: `fresh` reads the flag and `erase` clears it. -/
def markOne {α : Type} [DecidableEq α] (fresh : α → Bool) (erase : α → α) (x : α) :
    List α → List α
  | [] => []
  | n :: rest =>
    if fresh n && (erase n == erase x) then erase n :: rest
    else n :: markOne fresh erase x rest

/-- The full marking pass for one package: fold `markOne` over the existing
audits in order. -/
def markList {α : Type} [DecidableEq α] (fresh : α → Bool) (erase : α → α)
    (existing news : List α) : List α :=
  existing.foldl (fun acc x => markOne fresh erase x acc) news

/-- The marking pass over a package map: for each package of the prior lock
entry, mark the corresponding new list (packages absent from the new map are
untouched, matching the source's discarded `unwrap_or(&mut [])` slice). -/
def markMap {α : Type} [DecidableEq α] (fresh : α → Bool) (erase : α → α)
    (exPairs m : SMap (List α)) : SMap (List α) :=
  exPairs.foldl (fun acc p => smUpdate acc p.1 (markList fresh erase p.2)) m

/-- The freshness-marking pass of `process_imported_audits` over a whole peer
file, on both the audits map and the wildcard-audits map. -/
def markFile (existing af : AuditsFile) : AuditsFile :=
  { af with
    audits := markMap (fun e : AuditEntry => e.is_fresh_import)
      AuditEntry.eraseFresh existing.audits af.audits,
    wildcard_audits := markMap (fun e : WildcardEntry => e.is_fresh_import)
      WildcardEntry.eraseFresh existing.wildcard_audits af.wildcard_audits }

/-! ## Import reconciliation (`process_imported_audits`) -/

/-- Modelled from the spec: the external unified-diff routine from the
`similar` crate, represented as a deterministic textual diff of the two
descriptions. -/
def unifiedDiff (old new : String) : String :=
  "-" ++ old ++ "\n+" ++ new

/-- A `CriteriaChange` diagnostic. -/
structure CriteriaChangeError where
  import_name : ImportName
  criteria_name : CriteriaName
  unified_diff : String
deriving DecidableEq, Repr

/-- The aggregated `CriteriaChange` error. -/
structure CriteriaChangeErrors where
  errors : List CriteriaChangeError
deriving DecidableEq, Repr

/-- The per-entry rewrite of `process_imported_audits`: mark the audit fresh
and rewrite its criteria list into the local namespace. -/
def rewriteEntryA (fv lv : List CriteriaName) (config : RemoteImport)
    (e : AuditEntry) : AuditEntry :=
  { e with is_fresh_import := true, criteria := makeCriteriaLocal fv lv config e.criteria }

/-- The per-entry rewrite for wildcard audits. -/
def rewriteEntryW (fv lv : List CriteriaName) (config : RemoteImport)
    (e : WildcardEntry) : WildcardEntry :=
  { e with is_fresh_import := true, criteria := makeCriteriaLocal fv lv config e.criteria }

/-- The retained-criteria transform: clear `description_url` and `implies`. -/
def trimCriteriaEntry (e : CriteriaEntry) : CriteriaEntry :=
  { e with description_url := none, implies := [] }

/-- The per-peer exclusion, criteria rewriting and criteria trimming of
`process_imported_audits` (everything before the comparison against the prior
lock entry): drop excluded packages from `audits`, set `is_fresh_import :=
true` on every audit and wildcard entry while rewriting its criteria into the
local namespace, and retain only criteria named in `criteria_map`, clearing
their `description_url` and `implies`. -/
def rewriteFile (localCriteria : SMap CriteriaEntry) (config : RemoteImport)
    (af : AuditsFile) : AuditsFile :=
  let audits0 := config.exclude.foldl (fun m k => smRemove m k) af.audits
  let fv := allCriteriaNames af.criteria
  let lv := allCriteriaNames localCriteria
  { criteria :=
      (af.criteria.filter (fun p => (smGet config.criteria_map p.1).isSome)).map
        (fun p => (p.1, trimCriteriaEntry p.2)),
    audits := smMapVal (List.map (rewriteEntryA fv lv config)) audits0,
    wildcard_audits := smMapVal (List.map (rewriteEntryW fv lv config)) af.wildcard_audits }

/-- The criteria-description comparison of `process_imported_audits`.  Walks
the prior lock entry's criteria; for each criterion also retained in the new
file, both descriptions are unwrapped (`none` models the source's panic) and a
diagnostic is accumulated on mismatch. -/
def compareCriteria (import_name : ImportName) (newCriteria : SMap CriteriaEntry) :
    List (String × CriteriaEntry) → Option (List CriteriaChangeError)
  | [] => some []
  | (criteria_name, old_entry) :: rest =>
    match smGet newCriteria criteria_name with
    | none => compareCriteria import_name newCriteria rest
    | some new_entry =>
      match old_entry.description, new_entry.description with
      | some old_desc, some new_desc =>
        match compareCriteria import_name newCriteria rest with
        | none => none
        | some tail =>
          if old_desc = new_desc then some tail
          else some ({ import_name := import_name, criteria_name := criteria_name,
                       unified_diff := unifiedDiff old_desc new_desc } :: tail)
      | _, _ => none

/-- Process one fetched peer: look up its import config (`none` models the
source's panic on a fetched peer with no config), rewrite the file, and if a
prior lock entry exists, compare criteria descriptions (unless
`allow_criteria_changes`) and clear the freshness flag of entries matching a
prior audit. -/
def processPeer (localCriteria : SMap CriteriaEntry) (config_file : ConfigFile)
    (imports_lock : ImportsFile) (allow_criteria_changes : Bool)
    (import_name : ImportName) (audits_file : AuditsFile) :
    Option (List CriteriaChangeError × AuditsFile) :=
  match smGet config_file.imports import_name with
  | none => none
  | some config =>
    match smGet imports_lock.audits import_name with
    | none => some ([], rewriteFile localCriteria config audits_file)
    | some existing =>
      match (if allow_criteria_changes then some [] else
             compareCriteria import_name
               (rewriteFile localCriteria config audits_file).criteria
               existing.criteria) with
      | none => none
      | some changed =>
        some (changed, markFile existing (rewriteFile localCriteria config audits_file))

/-- The peer loop of `process_imported_audits`, threading the accumulated
audits map and criteria-change diagnostics. -/
def processLoop (localCriteria : SMap CriteriaEntry) (config_file : ConfigFile)
    (imports_lock : ImportsFile) (allow_criteria_changes : Bool) :
    List (ImportName × AuditsFile) → SMap AuditsFile → List CriteriaChangeError →
    Option (SMap AuditsFile × List CriteriaChangeError)
  | [], acc, changed => some (acc, changed)
  | (import_name, audits_file) :: rest, acc, changed =>
    match processPeer localCriteria config_file imports_lock allow_criteria_changes
        import_name audits_file with
    | none => none
    | some (es, processed) =>
      processLoop localCriteria config_file imports_lock allow_criteria_changes
        rest (smInsert acc import_name processed) (changed ++ es)

/-- `process_imported_audits`: reconcile the fetched peer audit files against
the imports-lock.  The outer `Option` models the source's panics (a fetched
peer without a config, or an unwrapped missing criteria description); the
`Except` is the `CriteriaChange` failure. -/
def process_imported_audits (fetched : List (ImportName × AuditsFile))
    (local_audits_file : AuditsFile) (config_file : ConfigFile)
    (imports_lock : ImportsFile) (allow_criteria_changes : Bool) :
    Option (Except CriteriaChangeErrors ImportsFile) :=
  match processLoop local_audits_file.criteria config_file imports_lock
      allow_criteria_changes fetched [] [] with
  | none => none
  | some (auditsMap, changed) =>
    if changed.isEmpty then some (Except.ok { publisher := [], audits := auditsMap })
    else some (Except.error { errors := changed })

/-- The pure per-peer result of `process_imported_audits` (the value inserted
under the peer's name when no panic occurs); for a peer with no import config
the result is immaterial (the source panics) and the input file is returned. -/
def peerFileD (localCriteria : SMap CriteriaEntry) (config_file : ConfigFile)
    (imports_lock : ImportsFile) (p : ImportName × AuditsFile) : AuditsFile :=
  match smGet config_file.imports p.1 with
  | none => p.2
  | some config =>
    match smGet imports_lock.audits p.1 with
    | none => rewriteFile localCriteria config p.2
    | some existing => markFile existing (rewriteFile localCriteria config p.2)

/-- The pure per-peer criteria-change diagnostics of `process_imported_audits`
(the diagnostics contributed by the peer when no panic occurs). -/
def peerErrorsD (localCriteria : SMap CriteriaEntry) (config_file : ConfigFile)
    (imports_lock : ImportsFile) (allow_criteria_changes : Bool)
    (p : ImportName × AuditsFile) : List CriteriaChangeError :=
  match smGet config_file.imports p.1 with
  | none => []
  | some config =>
    match smGet imports_lock.audits p.1 with
    | none => []
    | some existing =>
      (if allow_criteria_changes then some [] else
        compareCriteria p.1 (rewriteFile localCriteria config p.2).criteria
          existing.criteria).getD []

/-- A criteria-description mismatch witnessed in a criteria walk: criterion
`c` occurs in the walked prior list, is retained in the new criteria table,
and the two unwrapped descriptions differ; `e` is the resulting diagnostic. -/
def mismatchAt (nm : ImportName) (newC : SMap CriteriaEntry)
    (iter : List (String × CriteriaEntry)) (e : CriteriaChangeError) : Prop :=
  ∃ c old newE d1 d2, (c, old) ∈ iter ∧ smGet newC c = some newE ∧
    old.description = some d1 ∧ newE.description = some d2 ∧ d1 ≠ d2 ∧
    e = { import_name := nm, criteria_name := c, unified_diff := unifiedDiff d1 d2 }

/-- Peer `p` produces the criteria-change diagnostic `e` during reconciliation
against the prior lock entry. -/
def peerMismatchDiag (lc : SMap CriteriaEntry) (cf : ConfigFile) (lock : ImportsFile)
    (p : ImportName × AuditsFile) (e : CriteriaChangeError) : Prop :=
  ∃ cfgI existing, smGet cf.imports p.1 = some cfgI ∧
    smGet lock.audits p.1 = some existing ∧
    mismatchAt p.1 (rewriteFile lc cfgI p.2).criteria existing.criteria e

/-- Peer `p` has at least one criteria-description mismatch. -/
def peerMismatch (lc : SMap CriteriaEntry) (cf : ConfigFile) (lock : ImportsFile)
    (p : ImportName × AuditsFile) : Prop :=
  ∃ e, peerMismatchDiag lc cf lock p e

/-- All prior audits for package `k` collected across the pairs of a prior
map, in processing order (used to describe `markMap`). -/
def collectEx {α : Type} (ex : SMap (List α)) (k : String) : List α :=
  ((ex.filter (fun p => p.1 == k)).map (fun p => p.2)).flatten

/-- Clear every freshness flag in a peer audits file (the flag is not
persisted, so this is the persisted projection of the file). -/
def eraseAuditsFile (af : AuditsFile) : AuditsFile :=
  { af with
    audits := smMapVal (List.map AuditEntry.eraseFresh) af.audits,
    wildcard_audits := smMapVal (List.map WildcardEntry.eraseFresh) af.wildcard_audits }

/-- The persisted projection of an imports-lock: all freshness flags cleared. -/
def eraseImports (i : ImportsFile) : ImportsFile :=
  { i with audits := smMapVal eraseAuditsFile i.audits }

/-- Every audit and wildcard-audit entry of the file has a cleared flag. -/
def allFalseFile (af : AuditsFile) : Prop :=
  (∀ p ∈ af.audits, ∀ e ∈ p.2, e.is_fresh_import = false) ∧
  (∀ p ∈ af.wildcard_audits, ∀ e ∈ p.2, e.is_fresh_import = false)

/-! ## Store validation -/

inductive StoreValidateError where
  | InvalidCriteria (invalid : CriteriaName) (valid_names : List CriteriaName)
  | BadWildcardEndDate (date : Date) (max : Date)
  | BadFormat (name : String)
  | ImportsLockOutdated
deriving DecidableEq, Repr

/-- `check_criteria` from `Store::validate`: one `InvalidCriteria` error per
referenced criteria name missing from the valid-name list. -/
def checkCriteria (valid : List CriteriaName) (criteria : List CriteriaName) :
    List StoreValidateError :=
  (criteria.filter (fun c => !valid.contains c)).map
    (fun c => StoreValidateError.InvalidCriteria c valid)

/-- The valid-criteria list of `Store::validate`: local criteria names chained
with the two built-in names. -/
def validCriteriaNames (s : Store) : List CriteriaName :=
  smKeys s.audits.criteria ++ [SAFE_TO_RUN, SAFE_TO_DEPLOY]

/-- `Store::imports_lock_outdated`. -/
def imports_lock_outdated (s : Store) : Bool :=
  if s.live_imports.isSome then false
  else if !(smKeys s.config.imports == smKeys s.imports.audits) then true
  else s.config.imports.any (fun p =>
    match smGet s.imports.audits p.1 with
    | some audits_file => p.2.exclude.any (fun c => (smGet audits_file.audits c).isSome)
    | none => false)

def trimEndStr (s : String) : String :=
  String.mk (s.data.reverse.dropWhile (fun c => c.isWhitespace)).reverse

/-- Modelled from the spec: the external TOML serializers (`store_config`,
`store_audits`, `store_imports` go through the document codec, which is out of
scope); represented by a canonical textual rendering of the document value. -/
def store_config (c : ConfigFile) : String := toString (repr c)

/-- Modelled from the spec: see `store_config`. -/
def store_audits (a : AuditsFile) : String := toString (repr a)

/-- Modelled from the spec: see `store_config`. -/
def store_imports (i : ImportsFile) : String := toString (repr i)

/-- The formatting check of `Store::validate`: one `BadFormat` error per
document whose source differs (modulo trailing whitespace) from its
re-serialized form. -/
def formatErrorList (s : Store) : List StoreValidateError :=
  (if trimEndStr s.config_src != trimEndStr (store_config s.config)
   then [StoreValidateError.BadFormat "config.toml"] else []) ++
  (if trimEndStr s.audits_src != trimEndStr (store_audits s.audits)
   then [StoreValidateError.BadFormat "audits.toml"] else []) ++
  (if trimEndStr s.imports_src != trimEndStr (store_imports s.imports)
   then [StoreValidateError.BadFormat "imports.lock"] else [])

/-- The per-entry checks of `Store::validate` on a wildcard audit: criteria
validity, and the end date being at most `today + 12 months`. -/
def wildcardEntryErrors (valid : List CriteriaName) (max_end_date : Date)
    (e : WildcardEntry) : List StoreValidateError :=
  checkCriteria valid e.criteria ++
  (if Date.blt max_end_date e.end_date
   then [StoreValidateError.BadWildcardEndDate e.end_date max_end_date] else [])

/-- The accumulated error list of `Store::validate`. -/
def validateErrors (s : Store) (today : Date) (check_file_formatting : Bool) :
    List StoreValidateError :=
  (s.config.exemptions.foldl (fun acc p =>
      acc ++ p.2.foldl (fun a e => a ++ checkCriteria (validCriteriaNames s) e.criteria) []) []) ++
  (s.config.policy.foldl (fun acc p =>
      acc ++ (checkCriteria (validCriteriaNames s) (p.2.2.criteria.getD []) ++
        checkCriteria (validCriteriaNames s) (p.2.2.dev_criteria.getD []) ++
        p.2.2.dependency_criteria.foldl
          (fun a q => a ++ checkCriteria (validCriteriaNames s) q.2) [])) []) ++
  (s.audits.criteria.foldl
      (fun acc p => acc ++ checkCriteria (validCriteriaNames s) p.2.implies) []) ++
  (s.audits.audits.foldl (fun acc p =>
      acc ++ p.2.foldl (fun a e => a ++ checkCriteria (validCriteriaNames s) e.criteria) []) []) ++
  (s.audits.wildcard_audits.foldl (fun acc p =>
      acc ++ p.2.foldl (fun a e =>
        a ++ wildcardEntryErrors (validCriteriaNames s) today.addMonths12 e) []) []) ++
  (if check_file_formatting then formatErrorList s else []) ++
  (if imports_lock_outdated s then [StoreValidateError.ImportsLockOutdated] else [])

/-- `Store::validate`: accumulate all errors, fail if any. -/
def Store.validate (s : Store) (today : Date) (check_file_formatting : Bool) :
    Except (List StoreValidateError) Unit :=
  if (validateErrors s today check_file_formatting).isEmpty then Except.ok ()
  else Except.error (validateErrors s today check_file_formatting)

/-- `Store::clone_for_suggest`: a lock-less copy with all exemption entries
whose `suggest` is not `false` removed. -/
def Store.clone_for_suggest (s : Store) : Store :=
  { lock := none,
    config := { s.config with
      exemptions := s.config.exemptions.map (fun p => (p.1, p.2.filter (fun e => !e.suggest))) },
    imports := s.imports,
    audits := s.audits,
    live_imports := s.live_imports,
    config_src := s.config_src,
    audits_src := s.audits_src,
    imports_src := s.imports_src }

/-! ## Foreign audit file conversion (`foreign_audit_file_to_local`) -/

/-- Modelled from the spec: `ForeignAuditsFile` holds raw TOML values parsed
per entry by the external `parse_from_value`; each raw value is represented
here by its parse outcome (`none` = schema validation failure). -/
structure ForeignAuditsFile where
  criteria : SMap (Option CriteriaEntry)
  audits : SMap (List (Option AuditEntry))
  wildcard_audits : SMap (List (Option WildcardEntry))
deriving DecidableEq, Repr

structure ForeignAuditFileToLocalResult where
  audit_file : AuditsFile
  ignored_criteria : List CriteriaName
  ignored_audits : List PackageName
deriving DecidableEq, Repr

/-- `is_known_criteria`: reserved or present in the foreign vocabulary. -/
def is_known_criteria (valid_criteria : List CriteriaName) (c : CriteriaName) : Bool :=
  c == SAFE_TO_RUN || c == SAFE_TO_DEPLOY || valid_criteria.contains c

/-- Remove unknown criteria names from an entry's `criteria` list. -/
def filterAuditCriteria (valid_criteria : List CriteriaName) (a : AuditEntry) : AuditEntry :=
  { a with criteria := a.criteria.filter (is_known_criteria valid_criteria) }

/-- Remove unknown criteria names from a wildcard entry's `criteria` list. -/
def filterWildcardCriteria (valid_criteria : List CriteriaName) (a : WildcardEntry) :
    WildcardEntry :=
  { a with criteria := a.criteria.filter (is_known_criteria valid_criteria) }

/-- Remove unknown criteria names from a criteria entry's `implies` list. -/
def stripImplies (valid_criteria : List CriteriaName) (e : CriteriaEntry) : CriteriaEntry :=
  { e with implies := e.implies.filter (is_known_criteria valid_criteria) }

/-- `parse_imported_audit`: parse, drop unknown criteria names, and reject the
entry if no known criteria remain. -/
def parse_imported_audit (valid_criteria : List CriteriaName) (v : Option AuditEntry) :
    Option AuditEntry :=
  match v with
  | none => none
  | some audit =>
    if (filterAuditCriteria valid_criteria audit).criteria.isEmpty then none
    else some (filterAuditCriteria valid_criteria audit)

/-- `parse_imported_wildcard_audit`: same per-entry handling for wildcard audits. -/
def parse_imported_wildcard_audit (valid_criteria : List CriteriaName)
    (v : Option WildcardEntry) : Option WildcardEntry :=
  match v with
  | none => none
  | some audit =>
    if (filterWildcardCriteria valid_criteria audit).criteria.isEmpty then none
    else some (filterWildcardCriteria valid_criteria audit)

/-- The parsed criteria table of a foreign file (entries whose parse succeeded). -/
def parsedCriteria (f : ForeignAuditsFile) : SMap CriteriaEntry :=
  f.criteria.filterMap (fun p =>
    match p.2 with
    | some e => some (p.1, e)
    | none => none)

/-- The foreign vocabulary used for entry filtering: the names of the criteria
that parsed. -/
def foreignValidCriteria (f : ForeignAuditsFile) : List CriteriaName :=
  smKeys (parsedCriteria f)

/-- The surviving criteria table: parsed entries with unknown names stripped
from `implies`. -/
def localCriteriaTable (f : ForeignAuditsFile) : SMap CriteriaEntry :=
  (parsedCriteria f).map (fun p => (p.1, stripImplies (foreignValidCriteria f) p.2))

/-- The surviving audits map: per package, the entries that parsed with a
non-empty filtered criteria list; packages left empty are dropped. -/
def localAuditsMap (f : ForeignAuditsFile) : SMap (List AuditEntry) :=
  (f.audits.map (fun p =>
      (p.1, p.2.filterMap (parse_imported_audit (foreignValidCriteria f))))).filter
    (fun p => !p.2.isEmpty)

/-- The surviving wildcard-audits map. -/
def localWildcardsMap (f : ForeignAuditsFile) : SMap (List WildcardEntry) :=
  (f.wildcard_audits.map (fun p =>
      (p.1, p.2.filterMap (parse_imported_wildcard_audit (foreignValidCriteria f))))).filter
    (fun p => !p.2.isEmpty)

/-- The reported names of dropped criteria entries. -/
def ignoredCriteriaOf (f : ForeignAuditsFile) : List CriteriaName :=
  (f.criteria.filter (fun p => p.2.isNone)).map (fun p => p.1)

/-- The reported package names of dropped audit and wildcard-audit entries
(one occurrence per dropped entry, audits first). -/
def ignoredAuditsOf (f : ForeignAuditsFile) : List PackageName :=
  (f.audits.foldl (fun acc p =>
    acc ++ (p.2.filter (fun v =>
      (parse_imported_audit (foreignValidCriteria f) v).isNone)).map (fun _ => p.1)) []) ++
  (f.wildcard_audits.foldl (fun acc p =>
    acc ++ (p.2.filter (fun v =>
      (parse_imported_wildcard_audit (foreignValidCriteria f) v).isNone)).map
        (fun _ => p.1)) [])

/-- `foreign_audit_file_to_local`: drop unparseable criteria, audits and
wildcard audits (reporting names and packages), strip unknown criteria names
from surviving `implies` lists, and drop packages left with no audits. -/
def foreign_audit_file_to_local (f : ForeignAuditsFile) : ForeignAuditFileToLocalResult :=
  { audit_file := { criteria := localCriteriaTable f,
                    wildcard_audits := localWildcardsMap f,
                    audits := localAuditsMap f },
    ignored_criteria := ignoredCriteriaOf f,
    ignored_audits := ignoredAuditsOf f }

/-! ## Tarball unpacking (`unpack_package`) -/

/-- The path-safety failure of `unpack_package` (other I/O failures of the
source function are not modelled). -/
inductive UnpackError where
  | InvalidPaths (entry_path : List String) (pfx : String)
deriving DecidableEq, Repr

/-- `unpack_package`, as a pure function over the archive's entry paths (each
a list of path components).  The target directory starts empty (the source
removes and recreates it); entries are unpacked in order into the written-file
list until an entry path fails the prefix check, in which case the error is
returned together with the files written so far. -/
def unpack_package (pfx : String) : List (List String) → List (List String) →
    Except (UnpackError × List (List String)) (List (List String))
  | [], written => Except.ok written
  | entry_path :: rest, written =>
    match entry_path with
    | c :: _ =>
      if c = pfx then unpack_package pfx rest (written ++ [entry_path])
      else Except.error (UnpackError.InvalidPaths entry_path pfx, written)
    | [] => Except.error (UnpackError.InvalidPaths entry_path pfx, written)

/-- `Path::starts_with` for a single-component prefix. -/
def pathStartsWith (entry_path : List String) (pfx : String) : Bool :=
  match entry_path with
  | c :: _ => c = pfx
  | [] => false

/-! ## Concrete example values (spec scenarios S1-S5) -/

/-- S1: import config for peer `p` mapping `strong-reviewed` to `safe-to-deploy`. -/
def wit_peerCfg : RemoteImport :=
  { url := "https://p.example/audits.toml", exclude := [],
    criteria_map := [("strong-reviewed", ["safe-to-deploy"])] }

def wit_config : ConfigFile :=
  { default_criteria := "", imports := [("p", wit_peerCfg)], policy := [], exemptions := [] }

def wit_strongA : CriteriaEntry :=
  { description := some "A", description_url := none, implies := [] }

def wit_strongB : CriteriaEntry :=
  { description := some "B", description_url := none, implies := [] }

def wit_strongNone : CriteriaEntry :=
  { description := none, description_url := none, implies := [] }

def wit_libxAudit : AuditEntry :=
  { kind := AuditKind.full "1.2.3", criteria := ["strong-reviewed"], who := [],
    notes := none, is_fresh_import := false }

/-- S1: the fetched peer audits file. -/
def wit_fetchedFile : AuditsFile :=
  { criteria := [("strong-reviewed", wit_strongA)],
    wildcard_audits := [], audits := [("libx", [wit_libxAudit])] }

/-- S1: the fetched peer file for `p`. -/
def wit_fetched : List (ImportName × AuditsFile) :=
  [("p", wit_fetchedFile)]

def wit_localAudits : AuditsFile :=
  { criteria := [], wildcard_audits := [], audits := [] }

def wit_emptyLock : ImportsFile := { publisher := [], audits := [] }

/-- S3: prior lock whose `strong-reviewed` description is `B`. -/
def wit_priorLockB : ImportsFile :=
  { publisher := [],
    audits := [("p", { criteria := [("strong-reviewed", wit_strongB)],
                       wildcard_audits := [], audits := [] })] }

/-- A lock entry file whose `strong-reviewed` entry has no description. -/
def wit_lockNoneFile : AuditsFile :=
  { criteria := [("strong-reviewed", wit_strongNone)],
    wildcard_audits := [], audits := [] }

/-- Prior lock whose `strong-reviewed` entry has no description (triggers the
source's unwrap panic). -/
def wit_priorLockNone : ImportsFile :=
  { publisher := [], audits := [("p", wit_lockNoneFile)] }

/-- The S3 criteria-change diagnostic. -/
def wit_diagBA : CriteriaChangeError :=
  { import_name := "p", criteria_name := "strong-reviewed", unified_diff := "-B\n+A" }

/-- The peer entry of the imports-lock produced by the S1 reconciliation run. -/
def wit_L1File : AuditsFile :=
  { criteria := [("strong-reviewed", wit_strongA)],
    wildcard_audits := [],
    audits := [("libx",
      [{ kind := AuditKind.full "1.2.3", criteria := ["safe-to-deploy"],
         who := [], notes := none, is_fresh_import := true }])] }

/-- The imports-lock produced by the S1 reconciliation run. -/
def wit_L1 : ImportsFile :=
  { publisher := [], audits := [("p", wit_L1File)] }

/-- S4: a wildcard audit ending 2026-01-01. -/
def wit_wcEntry : WildcardEntry :=
  { criteria := ["safe-to-run"], user_id := 1,
    start := { year := 2020, month := 1, day := 1 },
    end_date := { year := 2026, month := 1, day := 1 },
    who := [], notes := none, is_fresh_import := false }

/-- S4: a store holding only the expiring wildcard audit. -/
def wit_s4store : Store :=
  { lock := some (),
    config := { default_criteria := "", imports := [], policy := [], exemptions := [] },
    imports := { publisher := [], audits := [] },
    audits := { criteria := [], wildcard_audits := [("pkg", [wit_wcEntry])], audits := [] },
    live_imports := none, config_src := "", imports_src := "", audits_src := "" }

/-- An empty store that passes validation. -/
def wit_emptyStore : Store :=
  { lock := some (),
    config := { default_criteria := "", imports := [], policy := [], exemptions := [] },
    imports := { publisher := [], audits := [] },
    audits := { criteria := [], wildcard_audits := [], audits := [] },
    live_imports := none, config_src := "", imports_src := "", audits_src := "" }

/-! ## Association map lemmas -/

theorem smGet_smMapVal {α β : Type} (f : α → β) (m : SMap α) (k : String) :
    smGet (smMapVal f m) k = (smGet m k).map f := by
  induction m with
  | nil => rfl
  | cons p rest ih =>
    simp only [smMapVal, List.map_cons, smGet]
    by_cases h : p.1 = k
    · simp [h]
    · simpa [h] using ih

theorem mem_of_smGet {α : Type} {m : SMap α} {k : String} {v : α}
    (h : smGet m k = some v) : (k, v) ∈ m := by
  induction m with
  | nil => simp [smGet] at h
  | cons p rest ih =>
    simp only [smGet] at h
    by_cases hk : p.1 = k
    · rw [if_pos hk] at h
      cases h
      subst hk
      exact List.mem_cons_self _ _
    · rw [if_neg hk] at h
      exact List.mem_cons_of_mem _ (ih h)

theorem smGet_isSome_iff_mem_keys {α : Type} (m : SMap α) (k : String) :
    (smGet m k).isSome ↔ k ∈ smKeys m := by
  induction m with
  | nil => simp [smGet, smKeys]
  | cons p rest ih =>
    simp only [smGet, smKeys, List.map_cons, List.mem_cons]
    by_cases h : p.1 = k
    · simp [h]
    · simp only [if_neg h]
      rw [ih]
      simp [smKeys, Ne.symm h]

theorem smGet_eq_some_of_mem_nodup {α : Type} {m : SMap α} {k : String} {v : α}
    (hnd : (smKeys m).Nodup) (hmem : (k, v) ∈ m) : smGet m k = some v := by
  induction m with
  | nil => simp at hmem
  | cons p rest ih =>
    simp only [smKeys, List.map_cons, List.nodup_cons] at hnd
    rcases List.mem_cons.mp hmem with h | h
    · cases h
      simp [smGet]
    · have hk : p.1 ≠ k := by
        intro he
        exact hnd.1 (he ▸ (List.mem_map.mpr ⟨(k, v), h, rfl⟩))
      simp only [smGet, if_neg hk]
      exact ih hnd.2 h

theorem smGet_map_pair_nodup {α β : Type} (f : String × α → β) {m : List (String × α)}
    {p : String × α} (hnd : (m.map (fun q => q.1)).Nodup) (hp : p ∈ m) :
    smGet (m.map (fun q => (q.1, f q))) p.1 = some (f p) := by
  induction m with
  | nil => simp at hp
  | cons q rest ih =>
    simp only [List.map_cons, List.nodup_cons] at hnd
    rcases List.mem_cons.mp hp with h | h
    · subst h
      simp [smGet]
    · have hk : q.1 ≠ p.1 := by
        intro he
        exact hnd.1 (he ▸ (List.mem_map.mpr ⟨p, h, rfl⟩))
      simp only [List.map_cons, smGet, if_neg hk]
      exact ih hnd.2 h

theorem smKeys_smUpdate {α : Type} (m : SMap α) (k : String) (f : α → α) :
    smKeys (smUpdate m k f) = smKeys m := by
  induction m with
  | nil => rfl
  | cons p rest ih =>
    simp only [smUpdate]
    by_cases h : p.1 = k
    · simp [smKeys, h]
    · simp only [if_neg h, smKeys, List.map_cons] at *
      rw [ih]

theorem smGet_smUpdate {α : Type} (m : SMap α) (k : String) (f : α → α) (j : String) :
    smGet (smUpdate m k f) j = if j = k then (smGet m k).map f else smGet m j := by
  induction m with
  | nil => simp [smUpdate, smGet]
  | cons p rest ih =>
    by_cases hpk : p.1 = k
    · subst hpk
      by_cases hj : j = p.1
      · subst hj
        simp [smUpdate, smGet]
      · have hj2 : ¬ p.1 = j := fun he => hj he.symm
        simp [smUpdate, smGet, hj, hj2]
    · by_cases hpj : p.1 = j
      · have hjk : ¬ j = k := fun he => hpk (hpj.trans he)
        simp [smUpdate, smGet, hpk, hpj, hjk]
      · simp [smUpdate, smGet, hpk, hpj, ih]

theorem smUpdate_cons_ne {α : Type} (p : String × α) (m : SMap α) (k : String)
    (f : α → α) (h : p.1 ≠ k) : smUpdate (p :: m) k f = p :: smUpdate m k f := by
  simp [smUpdate, h]

theorem smInsert_of_not_mem_keys {α : Type} {m : SMap α} {k : String} (v : α)
    (h : k ∉ smKeys m) : smInsert m k v = m ++ [(k, v)] := by
  induction m with
  | nil => rfl
  | cons p rest ih =>
    simp only [smKeys, List.map_cons, List.mem_cons] at h
    push_neg at h
    have hk : ¬ p.1 = k := fun he => h.1 he.symm
    simp only [smInsert, if_neg hk, List.cons_append]
    rw [ih (by simpa [smKeys] using h.2)]

/-- Membership in an error-accumulating fold. -/
theorem mem_foldl_append {β γ : Type} (l : List β) (g : β → List γ) (init : List γ)
    (x : γ) : x ∈ l.foldl (fun acc p => acc ++ g p) init ↔ x ∈ init ∨ ∃ p ∈ l, x ∈ g p := by
  induction l generalizing init with
  | nil => simp
  | cons b rest ih =>
    simp only [List.foldl_cons]
    rw [ih]
    simp only [List.mem_append, List.mem_cons]
    constructor
    · rintro (⟨h | h⟩ | ⟨p, hp, hx⟩)
      · exact Or.inl h
      · exact Or.inr ⟨b, Or.inl rfl, h⟩
      · exact Or.inr ⟨p, Or.inr hp, hx⟩
    · rintro (h | ⟨p, hp | hp, hx⟩)
      · exact Or.inl (Or.inl h)
      · exact Or.inl (Or.inr (hp ▸ hx))
      · exact Or.inr ⟨p, hp, hx⟩

/-! ## Marking lemmas -/

section MarkingLemmas

variable {α : Type} [DecidableEq α]

theorem markOne_map_erase (fresh : α → Bool) (erase : α → α)
    (h2 : ∀ a, erase (erase a) = erase a) (x : α) (l : List α) :
    (markOne fresh erase x l).map erase = l.map erase := by
  induction l with
  | nil => rfl
  | cons n rest ih =>
    simp only [markOne]
    by_cases hc : fresh n && (erase n == erase x)
    · simp [hc, h2]
    · simp [hc, ih]

theorem markList_map_erase (fresh : α → Bool) (erase : α → α)
    (h2 : ∀ a, erase (erase a) = erase a) (ex l : List α) :
    (markList fresh erase ex l).map erase = l.map erase := by
  induction ex generalizing l with
  | nil => rfl
  | cons x rest ih =>
    simp only [markList, List.foldl_cons] at *
    rw [ih (markOne fresh erase x l), markOne_map_erase fresh erase h2]

theorem markOne_cons_not_fresh (fresh : α → Bool) (erase : α → α)
    {c : α} (hc : fresh c = false) (x : α) (l : List α) :
    markOne fresh erase x (c :: l) = c :: markOne fresh erase x l := by
  simp [markOne, hc]

theorem markList_cons_not_fresh (fresh : α → Bool) (erase : α → α)
    {c : α} (hc : fresh c = false) (ex l : List α) :
    markList fresh erase ex (c :: l) = c :: markList fresh erase ex l := by
  induction ex generalizing l with
  | nil => rfl
  | cons x rest ih =>
    simp only [markList, List.foldl_cons] at *
    rw [markOne_cons_not_fresh fresh erase hc, ih]

theorem markList_append (fresh : α → Bool) (erase : α → α) (ex1 ex2 l : List α) :
    markList fresh erase (ex1 ++ ex2) l = markList fresh erase ex2 (markList fresh erase ex1 l) := by
  simp [markList, List.foldl_append]

/-- The core idempotence fact: marking an all-fresh list against a prior list
with the same content (flags ignored) clears every flag. -/
theorem markList_all_fresh (fresh : α → Bool) (erase : α → α)
    (h1 : ∀ a, fresh (erase a) = false) (h2 : ∀ a, erase (erase a) = erase a)
    (ex l : List α) (he : ex.map erase = l.map erase)
    (hf : ∀ e ∈ l, fresh e = true) :
    markList fresh erase ex l = l.map erase := by
  induction ex generalizing l with
  | nil =>
    have : l = [] := by
      cases l
      · rfl
      · simp at he
    subst this
    rfl
  | cons x rest ih =>
    cases l with
    | nil => simp at he
    | cons n ltail =>
      simp only [List.map_cons, List.cons.injEq] at he
      have hx : erase n = erase x := he.1.symm
      have hn : fresh n = true := hf n (List.mem_cons_self _ _)
      simp only [markList, List.foldl_cons]
      have hone : markOne fresh erase x (n :: ltail) = erase n :: ltail := by
        simp [markOne, hn, hx]
      rw [hone]
      have hpass : markList fresh erase rest (erase n :: ltail)
          = erase n :: markList fresh erase rest ltail := by
        exact markList_cons_not_fresh fresh erase (h1 n) rest ltail
      show markList fresh erase rest (erase n :: ltail) = _
      rw [hpass, ih ltail he.2 (fun e hee => hf e (List.mem_cons_of_mem _ hee))]
      simp

theorem mem_markOne (fresh : α → Bool) (erase : α → α) {x e : α} {l : List α}
    (h : e ∈ markOne fresh erase x l) :
    e ∈ l ∨ ∃ n ∈ l, fresh n = true ∧ erase n = erase x ∧ e = erase n := by
  induction l with
  | nil => simp [markOne] at h
  | cons n rest ih =>
    simp only [markOne] at h
    by_cases hc : fresh n && (erase n == erase x)
    · rw [if_pos hc] at h
      simp only [Bool.and_eq_true, beq_iff_eq] at hc
      rcases List.mem_cons.mp h with h | h
      · exact Or.inr ⟨n, List.mem_cons_self _ _, hc.1, hc.2, h⟩
      · exact Or.inl (List.mem_cons_of_mem _ h)
    · rw [if_neg hc] at h
      rcases List.mem_cons.mp h with h | h
      · exact Or.inl (h ▸ List.mem_cons_self _ _)
      · rcases ih h with h | ⟨n2, hn2, hfr, her, hee⟩
        · exact Or.inl (List.mem_cons_of_mem _ h)
        · exact Or.inr ⟨n2, List.mem_cons_of_mem _ hn2, hfr, her, hee⟩

theorem markOne_mem_of_not_fresh (fresh : α → Bool) (erase : α → α) {e : α}
    (hf : fresh e = false) (x : α) {l : List α} (h : e ∈ l) :
    e ∈ markOne fresh erase x l := by
  induction l with
  | nil => simp at h
  | cons n rest ih =>
    simp only [markOne]
    by_cases hc : fresh n && (erase n == erase x)
    · rw [if_pos hc]
      rcases List.mem_cons.mp h with h | h
      · subst h
        simp only [Bool.and_eq_true] at hc
        rw [hf] at hc
        exact absurd hc.1 (by simp)
      · exact List.mem_cons_of_mem _ h
    · rw [if_neg hc]
      rcases List.mem_cons.mp h with h | h
      · exact h ▸ List.mem_cons_self _ _
      · exact List.mem_cons_of_mem _ (ih h)

theorem markList_mem_of_not_fresh (fresh : α → Bool) (erase : α → α) {e : α}
    (hf : fresh e = false) (ex : List α) {l : List α} (h : e ∈ l) :
    e ∈ markList fresh erase ex l := by
  induction ex generalizing l with
  | nil => exact h
  | cons x rest ih =>
    simp only [markList, List.foldl_cons]
    exact ih (markOne_mem_of_not_fresh fresh erase hf x h)

/-- Every non-fresh entry after marking either matches some prior audit or was
already non-fresh. -/
theorem mem_markList_not_fresh (fresh : α → Bool) (erase : α → α)
    (h2 : ∀ a, erase (erase a) = erase a) {e : α} (ex : List α) {l : List α}
    (h : e ∈ markList fresh erase ex l) (hf : fresh e = false) :
    (∃ x ∈ ex, erase e = erase x) ∨ (e ∈ l ∧ fresh e = false) := by
  induction ex generalizing l with
  | nil => exact Or.inr ⟨h, hf⟩
  | cons x rest ih =>
    simp only [markList, List.foldl_cons] at h
    rcases ih (l := markOne fresh erase x l) h with hcase | ⟨hmem, hfr⟩
    · rcases hcase with ⟨x2, hx2, her⟩
      exact Or.inl ⟨x2, List.mem_cons_of_mem _ hx2, her⟩
    · rcases mem_markOne fresh erase hmem with hml | ⟨n, _, _, hnx, hen⟩
      · exact Or.inr ⟨hml, hf⟩
      · refine Or.inl ⟨x, List.mem_cons_self _ _, ?_⟩
        rw [hen, h2 n, hnx]

theorem exists_nonfresh_match_markOne (fresh : α → Bool) (erase : α → α)
    (h1 : ∀ a, fresh (erase a) = false) (h2 : ∀ a, erase (erase a) = erase a)
    {x : α} {l : List α} (h : ∃ m ∈ l, erase m = erase x) :
    ∃ m ∈ markOne fresh erase x l, erase m = erase x ∧ fresh m = false := by
  induction l with
  | nil => simp at h
  | cons n rest ih =>
    simp only [markOne]
    by_cases hc : fresh n && (erase n == erase x)
    · rw [if_pos hc]
      simp only [Bool.and_eq_true, beq_iff_eq] at hc
      refine ⟨erase n, List.mem_cons_self _ _, ?_, h1 n⟩
      rw [h2 n, hc.2]
    · rw [if_neg hc]
      by_cases hnx : erase n = erase x
      · have hfr : fresh n = false := by
          by_contra hne
          have : fresh n = true := by
            cases hfn : fresh n
            · exact absurd hfn hne
            · rfl
          rw [Bool.and_eq_true] at hc
          exact hc ⟨this, by simpa using hnx⟩
        exact ⟨n, List.mem_cons_self _ _, hnx, hfr⟩
      · rcases h with ⟨m, hm, hme⟩
        rcases List.mem_cons.mp hm with hm | hm
        · exact absurd (hm ▸ hme) hnx
        · rcases ih ⟨m, hm, hme⟩ with ⟨m2, hm2, hprop⟩
          exact ⟨m2, List.mem_cons_of_mem _ hm2, hprop⟩

/-- Greedy clearing: if the marked list contains any entry matching the prior
audit `x`, it contains a non-fresh one. -/
theorem exists_nonfresh_match_markList (fresh : α → Bool) (erase : α → α)
    (h1 : ∀ a, fresh (erase a) = false) (h2 : ∀ a, erase (erase a) = erase a)
    {x : α} {ex : List α} (hx : x ∈ ex) {l : List α}
    (h : ∃ m ∈ l, erase m = erase x) :
    ∃ m ∈ markList fresh erase ex l, erase m = erase x ∧ fresh m = false := by
  induction ex generalizing l with
  | nil => simp at hx
  | cons x0 rest ih =>
    simp only [markList, List.foldl_cons]
    rcases List.mem_cons.mp hx with hx0 | hx0
    · subst hx0
      rcases exists_nonfresh_match_markOne fresh erase h1 h2 h with ⟨m, hm, hme, hmf⟩
      exact ⟨m, markList_mem_of_not_fresh fresh erase hmf rest hm, hme, hmf⟩
    · apply ih hx0
      rcases h with ⟨m, hm, hme⟩
      have : erase m ∈ (markOne fresh erase x0 l).map erase := by
        rw [markOne_map_erase fresh erase h2]
        exact List.mem_map.mpr ⟨m, hm, rfl⟩
      rcases List.mem_map.mp this with ⟨m2, hm2, hm2e⟩
      exact ⟨m2, hm2, hm2e.trans hme⟩

end MarkingLemmas

/-! ## Map-level marking lemmas -/

section MarkMapLemmas

variable {α : Type} [DecidableEq α]

theorem collectEx_cons (k0 : String) (l0 : List α) (ex : SMap (List α)) (k : String) :
    collectEx ((k0, l0) :: ex) k
      = if k0 = k then l0 ++ collectEx ex k else collectEx ex k := by
  by_cases h : k0 = k <;> simp [collectEx, h]

theorem mem_collectEx {x : α} {ex : SMap (List α)} {k : String} :
    x ∈ collectEx ex k ↔ ∃ p ∈ ex, p.1 = k ∧ x ∈ p.2 := by
  simp only [collectEx, List.mem_flatten, List.mem_map, List.mem_filter]
  constructor
  · rintro ⟨l, ⟨p, ⟨hp, hkey⟩, rfl⟩, hx⟩
    exact ⟨p, hp, by simpa using hkey, hx⟩
  · rintro ⟨p, hp, hkey, hx⟩
    exact ⟨p.2, ⟨p, ⟨hp, by simpa using hkey⟩, rfl⟩, hx⟩

theorem smGet_markMap (fresh : α → Bool) (erase : α → α) (ex m : SMap (List α))
    (k : String) :
    smGet (markMap fresh erase ex m) k
      = (smGet m k).map (fun l => markList fresh erase (collectEx ex k) l) := by
  induction ex generalizing m with
  | nil =>
    cases h : smGet m k <;> simp [markMap, collectEx, markList, h]
  | cons p ex2 ih =>
    rcases p with ⟨k0, exl⟩
    show smGet (markMap fresh erase ex2 (smUpdate m k0 (markList fresh erase exl))) k = _
    rw [ih, smGet_smUpdate, collectEx_cons]
    by_cases h : k = k0
    · subst h
      rw [if_pos rfl, if_pos rfl]
      cases hg : smGet m k <;>
        simp [markList_append]
    · have h2 : ¬ k0 = k := fun he => h he.symm
      rw [if_neg h, if_neg h2]

theorem smKeys_markMap (fresh : α → Bool) (erase : α → α) (ex m : SMap (List α)) :
    smKeys (markMap fresh erase ex m) = smKeys m := by
  induction ex generalizing m with
  | nil => rfl
  | cons p ex2 ih =>
    show smKeys (markMap fresh erase ex2 (smUpdate m p.1 (markList fresh erase p.2))) = _
    rw [ih, smKeys_smUpdate]

theorem smKeys_smMapVal {β γ : Type} (f : β → γ) (m : SMap β) :
    smKeys (smMapVal f m) = smKeys m := by
  simp [smKeys, smMapVal]

theorem smMapVal_erase_smUpdate (fresh : α → Bool) (erase : α → α)
    (h2 : ∀ a, erase (erase a) = erase a) (m : SMap (List α)) (k : String)
    (ex : List α) :
    smMapVal (List.map erase) (smUpdate m k (markList fresh erase ex))
      = smMapVal (List.map erase) m := by
  induction m with
  | nil => rfl
  | cons p rest ih =>
    simp only [smUpdate]
    by_cases h : p.1 = k
    · simp only [if_pos h, smMapVal, List.map_cons]
      rw [markList_map_erase fresh erase h2]
    · simp only [if_neg h, smMapVal, List.map_cons] at *
      rw [ih]

theorem smMapVal_erase_markMap (fresh : α → Bool) (erase : α → α)
    (h2 : ∀ a, erase (erase a) = erase a) (ex m : SMap (List α)) :
    smMapVal (List.map erase) (markMap fresh erase ex m)
      = smMapVal (List.map erase) m := by
  induction ex generalizing m with
  | nil => rfl
  | cons p ex2 ih =>
    show smMapVal (List.map erase) (markMap fresh erase ex2 _) = _
    rw [ih, smMapVal_erase_smUpdate fresh erase h2]

theorem markMap_cons_ne (fresh : α → Bool) (erase : α → α) {ex : SMap (List α)}
    {k : String} (hne : ∀ p ∈ ex, p.1 ≠ k) (v : List α) (m : SMap (List α)) :
    markMap fresh erase ex ((k, v) :: m) = (k, v) :: markMap fresh erase ex m := by
  induction ex generalizing m with
  | nil => rfl
  | cons p ex2 ih =>
    have hp : p.1 ≠ k := hne p (List.mem_cons_self _ _)
    show markMap fresh erase ex2 (smUpdate ((k, v) :: m) p.1 (markList fresh erase p.2)) = _
    rw [smUpdate_cons_ne _ _ _ _ (fun he => hp he.symm)]
    exact ih (fun q hq => hne q (List.mem_cons_of_mem _ hq)) _

/-- Idempotent-run shape of the marking pass: marking an all-fresh map against
a prior map with identical persisted content clears every flag. -/
theorem markMap_eq_erase (fresh : α → Bool) (erase : α → α)
    (h1 : ∀ a, fresh (erase a) = false) (h2 : ∀ a, erase (erase a) = erase a)
    (ex m : SMap (List α)) (hk : (smKeys m).Nodup)
    (he : smMapVal (List.map erase) ex = smMapVal (List.map erase) m)
    (hf : ∀ p ∈ m, ∀ e ∈ p.2, fresh e = true) :
    markMap fresh erase ex m = smMapVal (List.map erase) m := by
  induction ex generalizing m with
  | nil =>
    have : m = [] := by
      cases m
      · rfl
      · simp [smMapVal] at he
    subst this
    rfl
  | cons p ex2 ih =>
    cases m with
    | nil => simp [smMapVal] at he
    | cons q m2 =>
      rcases p with ⟨k0, exl⟩
      rcases q with ⟨k1, ml⟩
      simp only [smMapVal, List.map_cons, List.cons.injEq, Prod.mk.injEq] at he
      have hkey : k0 = k1 := he.1.1
      subst hkey
      have herase : exl.map erase = ml.map erase := he.1.2
      have htail : smMapVal (List.map erase) ex2 = smMapVal (List.map erase) m2 := he.2
      simp only [smKeys, List.map_cons, List.nodup_cons] at hk
      show markMap fresh erase ex2
          (smUpdate ((k0, ml) :: m2) k0 (markList fresh erase exl)) = _
      have hupd : smUpdate ((k0, ml) :: m2) k0 (markList fresh erase exl)
          = (k0, markList fresh erase exl ml) :: m2 := by
        simp [smUpdate]
      rw [hupd, markList_all_fresh fresh erase h1 h2 exl ml herase
        (hf (k0, ml) (List.mem_cons_self _ _))]
      have hne : ∀ p2 ∈ ex2, p2.1 ≠ k0 := by
        intro p2 hp2 hcon
        have : p2.1 ∈ smKeys (smMapVal (List.map erase) ex2) :=
          (smKeys_smMapVal _ _).symm ▸ (List.mem_map.mpr ⟨p2, hp2, rfl⟩)
        rw [htail, smKeys_smMapVal] at this
        exact hk.1 (hcon ▸ this)
      rw [markMap_cons_ne fresh erase hne]
      rw [ih m2 hk.2 htail (fun q hq => hf q (List.mem_cons_of_mem _ hq))]
      simp [smMapVal]

end MarkMapLemmas

/-! ## Entry-type flag laws -/

theorem auditEntry_fresh_eraseFresh (a : AuditEntry) :
    a.eraseFresh.is_fresh_import = false := rfl

theorem auditEntry_eraseFresh_idem (a : AuditEntry) :
    a.eraseFresh.eraseFresh = a.eraseFresh := rfl

theorem auditEntry_eraseFresh_of_not_fresh {a : AuditEntry}
    (h : a.is_fresh_import = false) : a.eraseFresh = a := by
  cases a with
  | mk k c w n f =>
    simp only [AuditEntry.eraseFresh]
    simp only at h
    rw [h]

theorem auditEntry_same_audit_as_iff (a b : AuditEntry) :
    a.same_audit_as b = true ↔ a.eraseFresh = b.eraseFresh := by
  simp [AuditEntry.same_audit_as]

theorem wildcardEntry_fresh_eraseFresh (a : WildcardEntry) :
    a.eraseFresh.is_fresh_import = false := rfl

theorem wildcardEntry_eraseFresh_idem (a : WildcardEntry) :
    a.eraseFresh.eraseFresh = a.eraseFresh := rfl

theorem wildcardEntry_eraseFresh_of_not_fresh {a : WildcardEntry}
    (h : a.is_fresh_import = false) : a.eraseFresh = a := by
  cases a with
  | mk c u s en w n f =>
    simp only [WildcardEntry.eraseFresh]
    simp only at h
    rw [h]

theorem wildcardEntry_same_audit_as_iff (a b : WildcardEntry) :
    a.same_audit_as b = true ↔ a.eraseFresh = b.eraseFresh := by
  simp [WildcardEntry.same_audit_as]

/-! ## Rewrite-pass lemmas -/

theorem rewriteFile_criteria (lc : SMap CriteriaEntry) (cfg : RemoteImport) (af : AuditsFile) :
    (rewriteFile lc cfg af).criteria
      = (af.criteria.filter (fun p => (smGet cfg.criteria_map p.1).isSome)).map
        (fun p => (p.1, trimCriteriaEntry p.2)) := rfl

theorem rewriteFile_audits (lc : SMap CriteriaEntry) (cfg : RemoteImport) (af : AuditsFile) :
    (rewriteFile lc cfg af).audits
      = smMapVal (List.map (rewriteEntryA (allCriteriaNames af.criteria)
          (allCriteriaNames lc) cfg))
        (cfg.exclude.foldl (fun m k => smRemove m k) af.audits) := rfl

theorem rewriteFile_wildcards (lc : SMap CriteriaEntry) (cfg : RemoteImport) (af : AuditsFile) :
    (rewriteFile lc cfg af).wildcard_audits
      = smMapVal (List.map (rewriteEntryW (allCriteriaNames af.criteria)
          (allCriteriaNames lc) cfg))
        af.wildcard_audits := rfl

theorem rewriteFile_audits_fresh (lc : SMap CriteriaEntry) (cfg : RemoteImport)
    (af : AuditsFile) (pkg : String) (l : List AuditEntry)
    (h : smGet (rewriteFile lc cfg af).audits pkg = some l) :
    ∀ e ∈ l, e.is_fresh_import = true := by
  rw [rewriteFile_audits, smGet_smMapVal] at h
  rcases Option.map_eq_some'.mp h with ⟨l0, _, rfl⟩
  intro e he
  rcases List.mem_map.mp he with ⟨e0, _, rfl⟩
  rfl

theorem rewriteFile_wildcards_fresh (lc : SMap CriteriaEntry) (cfg : RemoteImport)
    (af : AuditsFile) (pkg : String) (l : List WildcardEntry)
    (h : smGet (rewriteFile lc cfg af).wildcard_audits pkg = some l) :
    ∀ e ∈ l, e.is_fresh_import = true := by
  rw [rewriteFile_wildcards, smGet_smMapVal] at h
  rcases Option.map_eq_some'.mp h with ⟨l0, _, rfl⟩
  intro e he
  rcases List.mem_map.mp he with ⟨e0, _, rfl⟩
  rfl

theorem nodup_keys_filter_map_pair {α β : Type} (pred : String × α → Bool)
    (f : String × α → β) {m : List (String × α)}
    (h : (m.map (fun p => p.1)).Nodup) :
    (((m.filter pred).map (fun p => (p.1, f p))).map (fun p => p.1)).Nodup := by
  have : ((m.filter pred).map (fun p => (p.1, f p))).map (fun p => p.1)
      = (m.filter pred).map (fun p => p.1) := by
    simp
  rw [this]
  exact ((List.filter_sublist m).map (fun p => p.1)).nodup h

theorem smKeys_smRemove_sublist {α : Type} (m : SMap α) (k : String) :
    List.Sublist (smKeys (smRemove m k)) (smKeys m) := by
  simp only [smKeys, smRemove]
  exact (List.filter_sublist m).map (fun p => p.1)

theorem smKeys_exclude_sublist {α : Type} (excl : List String) (m : SMap α) :
    List.Sublist (smKeys (excl.foldl (fun m2 k => smRemove m2 k) m)) (smKeys m) := by
  induction excl generalizing m with
  | nil => exact List.Sublist.refl _
  | cons k rest ih =>
    exact (ih (smRemove m k)).trans (smKeys_smRemove_sublist m k)

theorem rewriteFile_audits_keys_nodup (lc : SMap CriteriaEntry) (cfg : RemoteImport)
    (af : AuditsFile) (h : (smKeys af.audits).Nodup) :
    (smKeys (rewriteFile lc cfg af).audits).Nodup := by
  rw [rewriteFile_audits, smKeys_smMapVal]
  exact (smKeys_exclude_sublist cfg.exclude af.audits).nodup h

theorem rewriteFile_wildcards_keys_nodup (lc : SMap CriteriaEntry) (cfg : RemoteImport)
    (af : AuditsFile) (h : (smKeys af.wildcard_audits).Nodup) :
    (smKeys (rewriteFile lc cfg af).wildcard_audits).Nodup := by
  rw [rewriteFile_wildcards]
  rw [smKeys_smMapVal]
  exact h

theorem rewriteFile_criteria_keys_nodup (lc : SMap CriteriaEntry) (cfg : RemoteImport)
    (af : AuditsFile) (h : (smKeys af.criteria).Nodup) :
    (smKeys (rewriteFile lc cfg af).criteria).Nodup := by
  rw [rewriteFile_criteria]
  have heq : (((af.criteria.filter (fun p => (smGet cfg.criteria_map p.1).isSome)).map
      (fun p => (p.1, trimCriteriaEntry p.2))).map (fun p => p.1))
      = (af.criteria.filter (fun p => (smGet cfg.criteria_map p.1).isSome)).map
        (fun p => p.1) := by
    simp
  show (smKeys _).Nodup
  simp only [smKeys]
  rw [heq]
  exact ((List.filter_sublist af.criteria).map (fun p => p.1)).nodup
    (by simpa [smKeys] using h)

/-! ## Process-loop lemmas -/

theorem processPeer_errors (lc : SMap CriteriaEntry) (cf : ConfigFile)
    (lock : ImportsFile) (allow : Bool) (n : ImportName) (af : AuditsFile)
    {es : List CriteriaChangeError} {F : AuditsFile}
    (h : processPeer lc cf lock allow n af = some (es, F)) :
    es = peerErrorsD lc cf lock allow (n, af) := by
  unfold processPeer at h
  unfold peerErrorsD
  cases g1 : smGet cf.imports n with
  | none => rw [g1] at h; simp at h
  | some cfgI =>
    rw [g1] at h
    simp only at h ⊢
    cases g2 : smGet lock.audits n with
    | none =>
      rw [g2] at h
      simp only [Option.some.injEq, Prod.mk.injEq] at h ⊢
      exact h.1.symm
    | some ex =>
      rw [g2] at h
      simp only at h ⊢
      cases hc : (if allow = true then some [] else
          compareCriteria n (rewriteFile lc cfgI af).criteria ex.criteria) with
      | none => rw [hc] at h; simp at h
      | some changed =>
        rw [hc] at h
        simp only [Option.some.injEq, Prod.mk.injEq] at h
        simp [h.1]

theorem processPeer_file (lc : SMap CriteriaEntry) (cf : ConfigFile)
    (lock : ImportsFile) (allow : Bool) (n : ImportName) (af : AuditsFile)
    {es : List CriteriaChangeError} {F : AuditsFile}
    (h : processPeer lc cf lock allow n af = some (es, F)) :
    F = peerFileD lc cf lock (n, af) := by
  unfold processPeer at h
  unfold peerFileD
  cases g1 : smGet cf.imports n with
  | none => rw [g1] at h; simp at h
  | some cfgI =>
    rw [g1] at h
    simp only at h ⊢
    cases g2 : smGet lock.audits n with
    | none =>
      rw [g2] at h
      simp only [Option.some.injEq, Prod.mk.injEq] at h ⊢
      exact h.2.symm
    | some ex =>
      rw [g2] at h
      simp only at h ⊢
      cases hc : (if allow = true then some [] else
          compareCriteria n (rewriteFile lc cfgI af).criteria ex.criteria) with
      | none => rw [hc] at h; simp at h
      | some changed =>
        rw [hc] at h
        simp only [Option.some.injEq, Prod.mk.injEq] at h
        exact h.2.symm

theorem processLoop_success_peers (lc : SMap CriteriaEntry) (cf : ConfigFile)
    (lock : ImportsFile) (allow : Bool) :
    ∀ (fetched : List (ImportName × AuditsFile)) (acc : SMap AuditsFile)
      (ch : List CriteriaChangeError) (out : SMap AuditsFile × List CriteriaChangeError),
    processLoop lc cf lock allow fetched acc ch = some out →
    ∀ p ∈ fetched, ∃ res, processPeer lc cf lock allow p.1 p.2 = some res := by
  intro fetched
  induction fetched with
  | nil => intro _ _ _ _ p hp; simp at hp
  | cons q rest ih =>
    intro acc ch out h p hp
    rcases q with ⟨n, af⟩
    cases hq : processPeer lc cf lock allow n af with
    | none => rw [processLoop, hq] at h; exact absurd h (by simp)
    | some res =>
      rcases res with ⟨es, F⟩
      rw [processLoop, hq] at h
      rcases List.mem_cons.mp hp with hp | hp
      · subst hp
        exact ⟨(es, F), hq⟩
      · exact ih _ _ _ h p hp

theorem processLoop_changed (lc : SMap CriteriaEntry) (cf : ConfigFile)
    (lock : ImportsFile) (allow : Bool) :
    ∀ (fetched : List (ImportName × AuditsFile)) (acc : SMap AuditsFile)
      (ch chOut : List CriteriaChangeError) (out : SMap AuditsFile),
    processLoop lc cf lock allow fetched acc ch = some (out, chOut) →
    chOut = ch ++ (fetched.map (peerErrorsD lc cf lock allow)).flatten := by
  intro fetched
  induction fetched with
  | nil =>
    intro acc ch chOut out h
    simp only [processLoop, Option.some.injEq, Prod.mk.injEq] at h
    simp [h.2]
  | cons q rest ih =>
    intro acc ch chOut out h
    rcases q with ⟨n, af⟩
    cases hq : processPeer lc cf lock allow n af with
    | none => rw [processLoop, hq] at h; exact absurd h (by simp)
    | some res =>
      rcases res with ⟨es, F⟩
      rw [processLoop, hq] at h
      have hes := processPeer_errors lc cf lock allow n af hq
      rw [ih _ _ _ _ h, hes]
      simp

theorem smKeys_append {α : Type} (a b : SMap α) :
    smKeys (a ++ b) = smKeys a ++ smKeys b := by
  simp [smKeys]

theorem processLoop_out (lc : SMap CriteriaEntry) (cf : ConfigFile)
    (lock : ImportsFile) (allow : Bool) :
    ∀ (fetched : List (ImportName × AuditsFile)) (acc : SMap AuditsFile)
      (ch chOut : List CriteriaChangeError) (out : SMap AuditsFile),
    (fetched.map (fun p => p.1)).Nodup →
    (∀ p ∈ fetched, p.1 ∉ smKeys acc) →
    processLoop lc cf lock allow fetched acc ch = some (out, chOut) →
    out = acc ++ fetched.map (fun p => (p.1, peerFileD lc cf lock p)) := by
  intro fetched
  induction fetched with
  | nil =>
    intro acc ch chOut out _ _ h
    simp only [processLoop, Option.some.injEq, Prod.mk.injEq] at h
    simp [h.1]
  | cons q rest ih =>
    intro acc ch chOut out hnd hdisj h
    rcases q with ⟨n, af⟩
    cases hq : processPeer lc cf lock allow n af with
    | none => rw [processLoop, hq] at h; exact absurd h (by simp)
    | some res =>
      rcases res with ⟨es, F⟩
      rw [processLoop, hq] at h
      have hF := processPeer_file lc cf lock allow n af hq
      simp only [List.map_cons, List.nodup_cons] at hnd
      have hins : smInsert acc n F = acc ++ [(n, F)] :=
        smInsert_of_not_mem_keys F (hdisj (n, af) (List.mem_cons_self _ _))
      have h2 : processLoop lc cf lock allow rest (smInsert acc n F) (ch ++ es)
          = some (out, chOut) := h
      rw [hins] at h2
      have hdisj2 : ∀ p ∈ rest, p.1 ∉ smKeys (acc ++ [(n, F)]) := by
        intro p hp
        rw [smKeys_append]
        simp only [List.mem_append, smKeys, List.map_cons, List.map_nil,
          List.mem_singleton]
        push_neg
        refine ⟨?_, ?_⟩
        · have := hdisj p (List.mem_cons_of_mem _ hp)
          simpa [smKeys] using this
        · intro hcon
          exact hnd.1 (hcon ▸ List.mem_map.mpr ⟨p, hp, rfl⟩)
      rw [ih _ _ _ _ hnd.2 hdisj2 h2, hF]
      simp

/-! ## Criteria comparison lemmas -/

theorem compareCriteria_some_mem (nm : ImportName) (newC : SMap CriteriaEntry) :
    ∀ (iter : List (String × CriteriaEntry)) (es : List CriteriaChangeError),
    compareCriteria nm newC iter = some es →
    ∀ e, e ∈ es ↔ mismatchAt nm newC iter e := by
  intro iter
  induction iter with
  | nil =>
    intro es h e
    simp only [compareCriteria, Option.some.injEq] at h
    subst h
    simp [mismatchAt]
  | cons q rest ih =>
    rcases q with ⟨c0, old0⟩
    intro es h e
    rw [compareCriteria] at h
    cases g : smGet newC c0 with
    | none =>
      rw [g] at h
      rw [ih es h e]
      constructor
      · rintro ⟨c, old, newE, d1, d2, hmem, hget, h1, h2, hne, he⟩
        exact ⟨c, old, newE, d1, d2, List.mem_cons_of_mem _ hmem, hget, h1, h2, hne, he⟩
      · rintro ⟨c, old, newE, d1, d2, hmem, hget, h1, h2, hne, he⟩
        rcases List.mem_cons.mp hmem with hh | hh
        · rcases Prod.mk.injEq .. ▸ hh with ⟨hc, hold⟩
          exact absurd (hc ▸ hget) (by simp [g])
        · exact ⟨c, old, newE, d1, d2, hh, hget, h1, h2, hne, he⟩
    | some newE0 =>
      rw [g] at h
      simp only at h
      cases hd1 : old0.description with
      | none => rw [hd1] at h; simp at h
      | some d1 =>
        rw [hd1] at h
        cases hd2 : newE0.description with
        | none => rw [hd2] at h; simp at h
        | some d2 =>
          rw [hd2] at h
          simp only at h
          cases hr : compareCriteria nm newC rest with
          | none => rw [hr] at h; simp at h
          | some tl =>
            rw [hr] at h
            simp only at h
            by_cases heq : d1 = d2
            · rw [if_pos heq] at h
              cases h
              rw [ih es hr e]
              constructor
              · rintro ⟨c, old, newE, e1, e2, hmem, hget, h1, h2, hne, he⟩
                exact ⟨c, old, newE, e1, e2, List.mem_cons_of_mem _ hmem, hget, h1, h2, hne, he⟩
              · rintro ⟨c, old, newE, e1, e2, hmem, hget, h1, h2, hne, he⟩
                rcases List.mem_cons.mp hmem with hh | hh
                · exfalso
                  have hc : c = c0 := congrArg Prod.fst hh
                  have hold : old = old0 := congrArg Prod.snd hh
                  subst hc
                  subst hold
                  rw [g] at hget
                  cases hget
                  rw [hd1] at h1
                  cases h1
                  rw [hd2] at h2
                  cases h2
                  exact hne heq
                · exact ⟨c, old, newE, e1, e2, hh, hget, h1, h2, hne, he⟩
            · rw [if_neg heq] at h
              cases h
              simp only [List.mem_cons]
              constructor
              · rintro (he | he)
                · exact ⟨c0, old0, newE0, d1, d2, List.mem_cons_self _ _, g, hd1, hd2, heq, he⟩
                · rcases (ih tl hr e).mp he with ⟨c, old, newE, e1, e2, hmem, hget, h1, h2, hne, hee⟩
                  exact ⟨c, old, newE, e1, e2, List.mem_cons_of_mem _ hmem, hget, h1, h2, hne, hee⟩
              · rintro ⟨c, old, newE, e1, e2, hmem, hget, h1, h2, hne, hee⟩
                rcases List.mem_cons.mp hmem with hh | hh
                · left
                  have hc : c = c0 := congrArg Prod.fst hh
                  have hold : old = old0 := congrArg Prod.snd hh
                  subst hc
                  subst hold
                  rw [g] at hget
                  cases hget
                  rw [hd1] at h1
                  cases h1
                  rw [hd2] at h2
                  cases h2
                  exact hee
                · right
                  exact (ih tl hr e).mpr ⟨c, old, newE, e1, e2, hh, hget, h1, h2, hne, hee⟩

theorem compareCriteria_isSome (nm : ImportName) (newC : SMap CriteriaEntry) :
    ∀ (iter : List (String × CriteriaEntry)),
    (∀ q ∈ iter, ∀ newE, smGet newC q.1 = some newE →
      q.2.description.isSome ∧ newE.description.isSome) →
    (compareCriteria nm newC iter).isSome := by
  intro iter
  induction iter with
  | nil => intro _; simp [compareCriteria]
  | cons q rest ih =>
    rcases q with ⟨c0, old0⟩
    intro hall
    rw [compareCriteria]
    cases g : smGet newC c0 with
    | none =>
      simp only
      exact ih (fun q hq => hall q (List.mem_cons_of_mem _ hq))
    | some newE0 =>
      simp only
      have hh := hall (c0, old0) (List.mem_cons_self _ _) newE0 g
      rcases Option.isSome_iff_exists.mp hh.1 with ⟨d1, hd1⟩
      rcases Option.isSome_iff_exists.mp hh.2 with ⟨d2, hd2⟩
      simp only at hd1
      have hr := ih (fun q hq => hall q (List.mem_cons_of_mem _ hq))
      rcases Option.isSome_iff_exists.mp hr with ⟨tl, htl⟩
      rw [hd1, hd2, htl]
      by_cases heq : d1 = d2 <;> simp [heq]

theorem compareCriteria_none (nm : ImportName) (newC : SMap CriteriaEntry) :
    ∀ (iter : List (String × CriteriaEntry)),
    (∃ q ∈ iter, ∃ newE, smGet newC q.1 = some newE ∧
      (q.2.description = none ∨ newE.description = none)) →
    compareCriteria nm newC iter = none := by
  intro iter
  induction iter with
  | nil => intro h; simp at h
  | cons q rest ih =>
    rcases q with ⟨c0, old0⟩
    intro h
    rw [compareCriteria]
    rcases h with ⟨q2, hq2, newE, hget, hbad⟩
    rcases List.mem_cons.mp hq2 with hh | hh
    · subst hh
      simp only at hget hbad
      rw [hget]
      simp only
      rcases hbad with hbad | hbad
      · rw [hbad]
      · cases hd1 : old0.description with
        | none => rfl
        | some d1 => rw [hbad]
    · cases g : smGet newC c0 with
      | none =>
        simp only
        exact ih ⟨q2, hh, newE, hget, hbad⟩
      | some newE0 =>
        simp only
        cases hd1 : old0.description with
        | none => rfl
        | some d1 =>
          cases hd2 : newE0.description with
          | none => rfl
          | some d2 =>
            simp only
            rw [ih ⟨q2, hh, newE, hget, hbad⟩]

theorem compareCriteria_self (nm : ImportName) (newC : SMap CriteriaEntry) :
    ∀ (iter : List (String × CriteriaEntry)),
    (∀ q ∈ iter, smGet newC q.1 = some q.2) →
    (∀ q ∈ iter, q.2.description.isSome) →
    compareCriteria nm newC iter = some [] := by
  intro iter
  induction iter with
  | nil => intro _ _; rfl
  | cons q rest ih =>
    rcases q with ⟨c0, old0⟩
    intro hget hdesc
    rw [compareCriteria]
    have g := hget (c0, old0) (List.mem_cons_self _ _)
    simp only at g
    rw [g]
    simp only
    rcases Option.isSome_iff_exists.mp (hdesc (c0, old0) (List.mem_cons_self _ _)) with ⟨d, hd⟩
    simp only at hd
    rw [hd]
    simp only
    rw [ih (fun q hq => hget q (List.mem_cons_of_mem _ hq))
      (fun q hq => hdesc q (List.mem_cons_of_mem _ hq))]
    simp

theorem processLoop_isSome (lc : SMap CriteriaEntry) (cf : ConfigFile)
    (lock : ImportsFile) (allow : Bool) :
    ∀ (fetched : List (ImportName × AuditsFile)) (acc : SMap AuditsFile)
      (ch : List CriteriaChangeError),
    (∀ p ∈ fetched, (processPeer lc cf lock allow p.1 p.2).isSome) →
    (processLoop lc cf lock allow fetched acc ch).isSome := by
  intro fetched
  induction fetched with
  | nil => intro acc ch _; simp [processLoop]
  | cons q rest ih =>
    intro acc ch hall
    rcases q with ⟨n, af⟩
    have hq := hall (n, af) (List.mem_cons_self _ _)
    cases hq2 : processPeer lc cf lock allow n af with
    | none => rw [hq2] at hq; simp at hq
    | some res =>
      rcases res with ⟨es, F⟩
      rw [processLoop, hq2]
      exact ih _ _ (fun p hp => hall p (List.mem_cons_of_mem _ hp))

/-! ## Criteria mapping characterization -/

theorem mem_resolveForeign (lv : List CriteriaName) (cfg : RemoteImport)
    (f c : CriteriaName) :
    c ∈ resolveForeign lv cfg f ↔
      c ∈ lv ∧ (match smGet cfg.criteria_map f with
        | some mapped => c ∈ mapped
        | none => (f = SAFE_TO_DEPLOY ∧ c = SAFE_TO_DEPLOY) ∨
                  (f = SAFE_TO_RUN ∧ c = SAFE_TO_RUN)) := by
  unfold resolveForeign
  cases g : smGet cfg.criteria_map f with
  | some mapped =>
    simp [criteriaFromList, List.mem_filter, List.elem_iff]
  | none =>
    by_cases hd : f = SAFE_TO_DEPLOY
    · subst hd
      simp [criteriaFromList, List.mem_filter, List.elem_iff, SAFE_TO_DEPLOY, SAFE_TO_RUN]
    · by_cases hr : f = SAFE_TO_RUN
      · subst hr
        simp [criteriaFromList, List.mem_filter, List.elem_iff, hd, SAFE_TO_DEPLOY, SAFE_TO_RUN]
      · simp [hd, hr]

theorem mem_makeCriteriaLocal_fold (lv : List CriteriaName) (cfg : RemoteImport)
    (c : CriteriaName) :
    ∀ (fs init : List CriteriaName), (∀ x ∈ init, x ∈ lv) →
    (c ∈ fs.foldl (fun acc f => unionCriteria lv acc (resolveForeign lv cfg f)) init ↔
      c ∈ init ∨ (c ∈ lv ∧ ∃ f ∈ fs, c ∈ resolveForeign lv cfg f)) := by
  intro fs
  induction fs with
  | nil => intro init _; simp
  | cons f0 fs2 ih =>
    intro init hinit
    rw [List.foldl_cons]
    have hsub : ∀ x ∈ unionCriteria lv init (resolveForeign lv cfg f0), x ∈ lv := by
      intro x hx
      exact (List.mem_filter.mp hx).1
    rw [ih _ hsub]
    have hu : c ∈ unionCriteria lv init (resolveForeign lv cfg f0) ↔
        c ∈ lv ∧ (c ∈ init ∨ c ∈ resolveForeign lv cfg f0) := by
      simp [unionCriteria, List.mem_filter, List.elem_iff]
    rw [hu]
    constructor
    · rintro (⟨hclv, hc | hc⟩ | ⟨hclv, f, hf, hcf⟩)
      · exact Or.inl hc
      · exact Or.inr ⟨hclv, f0, List.mem_cons_self _ _, hc⟩
      · exact Or.inr ⟨hclv, f, List.mem_cons_of_mem _ hf, hcf⟩
    · rintro (hc | ⟨hclv, f, hf, hcf⟩)
      · exact Or.inl ⟨hinit c hc, Or.inl hc⟩
      · rcases List.mem_cons.mp hf with hf | hf
        · exact Or.inl ⟨hclv, Or.inr (hf ▸ hcf)⟩
        · exact Or.inr ⟨hclv, f, hf, hcf⟩

/-- Claim C3: for every foreign criteria name, the resolved local criteria set
is the import config's `criteria_map` entry when one exists (overriding the
built-in handling even for the two reserved names), else the corresponding
reserved local criterion, else empty; and rewriting a criteria list emits
exactly the union of the resolved local sets of its foreign criteria (those in
the foreign vocabulary). -/
theorem claim_C3_criteria_mapping (foreignVocab localVocab : List CriteriaName)
    (config : RemoteImport) (criteria : List CriteriaName) (c : CriteriaName) :
    c ∈ makeCriteriaLocal foreignVocab localVocab config criteria ↔
      c ∈ localVocab ∧ ∃ f, f ∈ criteria ∧ f ∈ foreignVocab ∧
        (match smGet config.criteria_map f with
         | some mapped => c ∈ mapped
         | none => (f = SAFE_TO_DEPLOY ∧ c = SAFE_TO_DEPLOY) ∨
                   (f = SAFE_TO_RUN ∧ c = SAFE_TO_RUN)) := by
  unfold makeCriteriaLocal
  rw [mem_makeCriteriaLocal_fold localVocab config c
    (criteriaFromList foreignVocab criteria) [] (by simp)]
  simp only [List.not_mem_nil, false_or]
  constructor
  · rintro ⟨hclv, f, hf, hcf⟩
    have hf2 := List.mem_filter.mp hf
    rcases (mem_resolveForeign localVocab config f c).mp hcf with ⟨_, hmatch⟩
    exact ⟨hclv, f, by simpa [List.elem_iff] using hf2.2, hf2.1, hmatch⟩
  · rintro ⟨hclv, f, hfc, hffv, hmatch⟩
    refine ⟨hclv, f, List.mem_filter.mpr ⟨hffv, by simpa [List.elem_iff] using hfc⟩, ?_⟩
    exact (mem_resolveForeign localVocab config f c).mpr ⟨hclv, hmatch⟩

/-! ## Claim C9 -/

/-- Claim C9: `clone_for_suggest` returns a copy whose config keeps exactly
the exemption entries whose `suggest` field is `false`, with all other store
contents equal to the original's, and the clone holds no lock. -/
theorem claim_C9_clone_for_suggest (s : Store) :
    s.clone_for_suggest.lock = none ∧
    (∀ pkg, smGet s.clone_for_suggest.config.exemptions pkg
      = (smGet s.config.exemptions pkg).map (List.filter (fun e => !e.suggest))) ∧
    (∀ pkg e, (∃ l, smGet s.clone_for_suggest.config.exemptions pkg = some l ∧ e ∈ l)
      ↔ (∃ l, smGet s.config.exemptions pkg = some l ∧ e ∈ l ∧ e.suggest = false)) ∧
    s.clone_for_suggest.config.default_criteria = s.config.default_criteria ∧
    s.clone_for_suggest.config.imports = s.config.imports ∧
    s.clone_for_suggest.config.policy = s.config.policy ∧
    s.clone_for_suggest.audits = s.audits ∧
    s.clone_for_suggest.imports = s.imports ∧
    s.clone_for_suggest.live_imports = s.live_imports ∧
    s.clone_for_suggest.config_src = s.config_src ∧
    s.clone_for_suggest.audits_src = s.audits_src ∧
    s.clone_for_suggest.imports_src = s.imports_src := by
  have hget : ∀ pkg, smGet s.clone_for_suggest.config.exemptions pkg
      = (smGet s.config.exemptions pkg).map (List.filter (fun e => !e.suggest)) := by
    intro pkg
    exact smGet_smMapVal (List.filter (fun e => !e.suggest)) s.config.exemptions pkg
  refine ⟨rfl, hget, ?_, rfl, rfl, rfl, rfl, rfl, rfl, rfl, rfl, rfl⟩
  intro pkg e
  rw [hget pkg]
  cases h : smGet s.config.exemptions pkg with
  | none => simp
  | some l =>
    simp [List.mem_filter]

/-! ## Claim C8 -/

theorem unpack_package_bad (pfx : String) :
    ∀ (entries written : List (List String)),
    (∃ e ∈ entries, pathStartsWith e pfx = false) →
    ∃ e written2, unpack_package pfx entries written
        = Except.error (UnpackError.InvalidPaths e pfx, written2) ∧
      e ∈ entries ∧ pathStartsWith e pfx = false := by
  intro entries
  induction entries with
  | nil => intro w h; simp at h
  | cons p rest ih =>
    intro w h
    cases p with
    | nil =>
      exact ⟨[], w, rfl, List.mem_cons_self _ _, rfl⟩
    | cons c cs =>
      by_cases hc : c = pfx
      · have hstep : unpack_package pfx ((c :: cs) :: rest) w
            = unpack_package pfx rest (w ++ [c :: cs]) := by
          simp [unpack_package, hc]
        have hrest : ∃ e ∈ rest, pathStartsWith e pfx = false := by
          rcases h with ⟨e, he, hbad⟩
          rcases List.mem_cons.mp he with he | he
          · subst he
            simp [pathStartsWith, hc] at hbad
          · exact ⟨e, he, hbad⟩
        rcases ih (w ++ [c :: cs]) hrest with ⟨e, w2, heq, hmem, hbad⟩
        exact ⟨e, w2, hstep.trans heq, List.mem_cons_of_mem _ hmem, hbad⟩
      · have hstep : unpack_package pfx ((c :: cs) :: rest) w
            = Except.error (UnpackError.InvalidPaths (c :: cs) pfx, w) := by
          simp [unpack_package, hc]
        exact ⟨c :: cs, w, hstep, List.mem_cons_self _ _, by simp [pathStartsWith, hc]⟩

/-- Claim C8: `unpack_package` rejects any archive containing an entry whose
path does not start with the target directory's basename, returning
`InvalidPaths` with an offending entry path and the prefix; for an archive
whose single entry path is `../evil`, unpacking fails with
`InvalidPaths { entry_path := ../evil, prefix := pkg-1.0.0 }` and writes no
files into the target. -/
theorem claim_C8_unpack_rejects_escapes :
    (∀ (pfx : String) (entries : List (List String)),
      (∃ e ∈ entries, pathStartsWith e pfx = false) →
      ∃ e written, unpack_package pfx entries []
          = Except.error (UnpackError.InvalidPaths e pfx, written) ∧
        e ∈ entries ∧ pathStartsWith e pfx = false) ∧
    unpack_package "pkg-1.0.0" [[".." , "evil"]] []
      = Except.error (UnpackError.InvalidPaths [".." , "evil"] "pkg-1.0.0", []) := by
  refine ⟨?_, by rfl⟩
  intro pfx entries h
  exact unpack_package_bad pfx entries [] h

/-- Witness for C8 at a concrete two-entry archive. -/
theorem claim_C8_unpack_rejects_escapes_witness :
    ∃ e written, unpack_package "pkg-1.0.0" [["pkg-1.0.0", "lib.rs"], [".." , "evil"]] []
        = Except.error (UnpackError.InvalidPaths e "pkg-1.0.0", written) ∧
      e ∈ [["pkg-1.0.0", "lib.rs"], [".." , "evil"]] ∧
      pathStartsWith e "pkg-1.0.0" = false :=
  claim_C8_unpack_rejects_escapes.1 "pkg-1.0.0" _
    ⟨[".." , "evil"], by decide, by decide⟩

/-! ## Claim C7 -/

theorem bad_not_mem_checkCriteria (d m : Date) (v cs : List CriteriaName) :
    StoreValidateError.BadWildcardEndDate d m ∉ checkCriteria v cs := by
  intro h
  rcases List.mem_map.mp h with ⟨c, _, hcon⟩
  exact StoreValidateError.noConfusion hcon

theorem bad_not_mem_badFormat_ite (d m : Date) (c : Prop) [Decidable c] (nm : String) :
    StoreValidateError.BadWildcardEndDate d m
      ∉ (if c then [StoreValidateError.BadFormat nm] else []) := by
  intro h
  by_cases hc : c
  · rw [if_pos hc] at h
    exact StoreValidateError.noConfusion (List.mem_singleton.mp h)
  · rw [if_neg hc] at h
    simp at h

theorem bad_not_mem_formatErrorList (s : Store) (d m : Date) :
    StoreValidateError.BadWildcardEndDate d m ∉ formatErrorList s := by
  intro h
  unfold formatErrorList at h
  simp only [List.mem_append] at h
  rcases h with (h | h) | h
  · exact bad_not_mem_badFormat_ite d m _ _ h
  · exact bad_not_mem_badFormat_ite d m _ _ h
  · exact bad_not_mem_badFormat_ite d m _ _ h

theorem mem_ite_nil_right {α : Type} (c : Prop) [Decidable c] (A : List α) (x : α) :
    x ∈ (if c then A else []) ↔ c ∧ x ∈ A := by
  by_cases h : c <;> simp [h]

theorem bad_mem_wildcardEntryErrors (v : List CriteriaName) (mx : Date)
    (e : WildcardEntry) (d m : Date) :
    StoreValidateError.BadWildcardEndDate d m ∈ wildcardEntryErrors v mx e ↔
      (d = e.end_date ∧ m = mx ∧ Date.blt mx e.end_date = true) := by
  unfold wildcardEntryErrors
  simp only [List.mem_append]
  constructor
  · rintro (h | h)
    · exact absurd h (bad_not_mem_checkCriteria d m v e.criteria)
    · by_cases hb : Date.blt mx e.end_date
      · rw [if_pos hb] at h
        have := List.mem_singleton.mp h
        cases this
        exact ⟨rfl, rfl, hb⟩
      · rw [if_neg hb] at h
        simp at h
  · rintro ⟨rfl, rfl, hb⟩
    right
    simp [hb]

/-- Claim C7: `Store::validate` reports `BadWildcardEndDate` (with the
offending date and the maximum `today + 12 months`) for a wildcard-audit
entry if and only if that entry's end date exceeds `today + 12 months`; and
with today 2024-05-01 and end date 2026-01-01 (scenario S4), validation fails
with exactly that error and max 2025-05-01. -/
theorem claim_C7_bad_wildcard_end_date :
    (∀ (s : Store) (today : Date) (cf : Bool) (d m : Date),
      StoreValidateError.BadWildcardEndDate d m ∈ validateErrors s today cf ↔
        (m = today.addMonths12 ∧ Date.blt today.addMonths12 d = true ∧
         ∃ pkg l e, (pkg, l) ∈ s.audits.wildcard_audits ∧ e ∈ l ∧ e.end_date = d)) ∧
    Store.validate wit_s4store { year := 2024, month := 5, day := 1 } false
      = Except.error [StoreValidateError.BadWildcardEndDate
          { year := 2026, month := 1, day := 1 } { year := 2025, month := 5, day := 1 }] := by
  constructor
  · intro s today cf d m
    unfold validateErrors
    simp only [List.mem_append, mem_foldl_append, List.not_mem_nil, false_or,
      bad_mem_wildcardEntryErrors, mem_ite_nil_right, List.mem_singleton]
    simp [mem_foldl_append, bad_not_mem_checkCriteria d m,
      bad_not_mem_formatErrorList s d m]
    aesop
  · rfl

/-! ## Claim C1 -/

/-- Claim C1: for every store that passes `validate` with `live_imports`
absent, the key list of `config.imports` equals the key list of
`imports.audits`, and for every import, no package named in its `exclude` set
appears in its imports-lock entry. -/
theorem claim_C1_imports_lock_in_sync (s : Store) (today : Date) (cf : Bool)
    (hok : s.validate today cf = Except.ok ())
    (hlive : s.live_imports = none) :
    smKeys s.config.imports = smKeys s.imports.audits ∧
    ∀ p ∈ s.config.imports, ∃ af, smGet s.imports.audits p.1 = some af ∧
      ∀ c ∈ p.2.exclude, smGet af.audits c = none := by
  have herr : validateErrors s today cf = [] := by
    unfold Store.validate at hok
    by_cases h : (validateErrors s today cf).isEmpty
    · exact List.isEmpty_iff.mp h
    · rw [if_neg h] at hok
      exact absurd hok (by simp)
  have hout : imports_lock_outdated s = false := by
    by_contra hcon
    have htrue : imports_lock_outdated s = true := by
      cases h2 : imports_lock_outdated s
      · exact absurd h2 hcon
      · rfl
    have hmem : StoreValidateError.ImportsLockOutdated ∈ validateErrors s today cf := by
      unfold validateErrors
      simp only [List.mem_append]
      right
      simp [htrue]
    rw [herr] at hmem
    simp at hmem
  unfold imports_lock_outdated at hout
  rw [hlive] at hout
  simp only [Option.isSome_none, Bool.false_eq_true, if_false] at hout
  cases hkeys : (smKeys s.config.imports == smKeys s.imports.audits) with
  | false =>
    rw [hkeys] at hout
    simp at hout
  | true =>
    have heq : smKeys s.config.imports = smKeys s.imports.audits := beq_iff_eq.mp hkeys
    rw [hkeys] at hout
    simp only [Bool.not_true] at hout
    rw [if_neg (by simp)] at hout
    refine ⟨heq, ?_⟩
    intro p hp
    have hpay := (List.any_eq_false.mp hout) p hp
    have hsome : (smGet s.imports.audits p.1).isSome := by
      rw [smGet_isSome_iff_mem_keys, ← heq]
      exact List.mem_map.mpr ⟨p, hp, rfl⟩
    rcases Option.isSome_iff_exists.mp hsome with ⟨af, haf⟩
    refine ⟨af, haf, ?_⟩
    intro c hc
    rw [haf] at hpay
    simp only [Bool.not_eq_true] at hpay
    have hex := List.any_eq_false.mp hpay c hc
    simp only [Bool.not_eq_true] at hex
    exact Option.not_isSome_iff_eq_none.mp (by simp [hex])

/-- Witness for C1 at the empty store. -/
theorem claim_C1_imports_lock_in_sync_witness :
    smKeys wit_emptyStore.config.imports = smKeys wit_emptyStore.imports.audits ∧
    ∀ p ∈ wit_emptyStore.config.imports, ∃ af,
      smGet wit_emptyStore.imports.audits p.1 = some af ∧
      ∀ c ∈ p.2.exclude, smGet af.audits c = none :=
  claim_C1_imports_lock_in_sync wit_emptyStore
    { year := 2024, month := 1, day := 1 } false (by rfl) rfl

/-! ## Claim C6 -/

theorem mem_parsedCriteria (f : ForeignAuditsFile) (c : String) (e0 : CriteriaEntry) :
    (c, e0) ∈ parsedCriteria f ↔ (c, some e0) ∈ f.criteria := by
  unfold parsedCriteria
  rw [List.mem_filterMap]
  constructor
  · rintro ⟨p, hp, hpe⟩
    rcases p with ⟨c1, v1⟩
    cases v1 with
    | none => simp at hpe
    | some e1 =>
      simp only [Option.some.injEq, Prod.mk.injEq] at hpe
      rcases hpe with ⟨h1, h2⟩
      subst h1
      subst h2
      exact hp
  · intro hp
    exact ⟨(c, some e0), hp, rfl⟩

/-- Claim C6: `foreign_audit_file_to_local` drops every criteria, audit and
wildcard-audit entry that fails schema validation (reporting their names and
packages), drops every audit or wildcard-audit entry whose criteria list is
empty after filtering out names not in the foreign vocabulary or the two
reserved names (dropping packages left empty), and removes unknown criteria
names from the `implies` list of each surviving criteria entry. -/
theorem claim_C6_foreign_audit_file_to_local (f : ForeignAuditsFile) :
    (∀ c e, (c, e) ∈ (foreign_audit_file_to_local f).audit_file.criteria ↔
      ∃ e0, (c, some e0) ∈ f.criteria ∧ e = stripImplies (foreignValidCriteria f) e0) ∧
    (∀ c, c ∈ (foreign_audit_file_to_local f).ignored_criteria ↔ (c, none) ∈ f.criteria) ∧
    (∀ pkg l, (pkg, l) ∈ (foreign_audit_file_to_local f).audit_file.audits ↔
      ∃ l0, (pkg, l0) ∈ f.audits ∧
        l = l0.filterMap (parse_imported_audit (foreignValidCriteria f)) ∧ l ≠ []) ∧
    (∀ pkg l, (pkg, l) ∈ (foreign_audit_file_to_local f).audit_file.wildcard_audits ↔
      ∃ l0, (pkg, l0) ∈ f.wildcard_audits ∧
        l = l0.filterMap (parse_imported_wildcard_audit (foreignValidCriteria f)) ∧ l ≠ []) ∧
    (∀ v a, parse_imported_audit (foreignValidCriteria f) v = some a ↔
      ∃ a0, v = some a0 ∧ a = filterAuditCriteria (foreignValidCriteria f) a0 ∧
        (filterAuditCriteria (foreignValidCriteria f) a0).criteria ≠ []) ∧
    (∀ v a, parse_imported_wildcard_audit (foreignValidCriteria f) v = some a ↔
      ∃ a0, v = some a0 ∧ a = filterWildcardCriteria (foreignValidCriteria f) a0 ∧
        (filterWildcardCriteria (foreignValidCriteria f) a0).criteria ≠ []) ∧
    (∀ pkg, pkg ∈ (foreign_audit_file_to_local f).ignored_audits ↔
      ((∃ l0, (pkg, l0) ∈ f.audits ∧ ∃ v ∈ l0,
          parse_imported_audit (foreignValidCriteria f) v = none) ∨
       (∃ l0, (pkg, l0) ∈ f.wildcard_audits ∧ ∃ v ∈ l0,
          parse_imported_wildcard_audit (foreignValidCriteria f) v = none))) := by
  refine ⟨?_, ?_, ?_, ?_, ?_, ?_, ?_⟩
  · intro c e
    show (c, e) ∈ localCriteriaTable f ↔ _
    unfold localCriteriaTable
    rw [List.mem_map]
    constructor
    · rintro ⟨q, hq, hqe⟩
      rcases q with ⟨c1, e1⟩
      simp only [Prod.mk.injEq] at hqe
      rcases hqe with ⟨h1, h2⟩
      subst h1
      exact ⟨e1, (mem_parsedCriteria f _ e1).mp hq, h2.symm⟩
    · rintro ⟨e0, hmem, he⟩
      exact ⟨(c, e0), (mem_parsedCriteria f c e0).mpr hmem, by rw [he]⟩
  · intro c
    show c ∈ ignoredCriteriaOf f ↔ _
    unfold ignoredCriteriaOf
    rw [List.mem_map]
    constructor
    · rintro ⟨p, hp, hpc⟩
      rcases List.mem_filter.mp hp with ⟨hmem, hnone⟩
      have hp2 : p.2 = none := by simpa using hnone
      have hpe : p = (c, none) := Prod.ext hpc hp2
      rw [← hpe]
      exact hmem
    · intro hmem
      exact ⟨(c, none), List.mem_filter.mpr ⟨hmem, by simp⟩, rfl⟩
  · intro pkg l
    show (pkg, l) ∈ localAuditsMap f ↔ _
    unfold localAuditsMap
    constructor
    · intro h
      rcases List.mem_filter.mp h with ⟨hmem, hne⟩
      rcases List.mem_map.mp hmem with ⟨p, hp, hpe⟩
      simp only [Prod.mk.injEq] at hpe
      rcases hpe with ⟨h1, h2⟩
      subst h1
      refine ⟨p.2, by simpa using hp, h2.symm, ?_⟩
      simpa using hne
    · rintro ⟨l0, hmem, hl, hne⟩
      refine List.mem_filter.mpr ⟨?_, by simpa using hne⟩
      exact List.mem_map.mpr ⟨(pkg, l0), hmem, by simp [hl]⟩
  · intro pkg l
    show (pkg, l) ∈ localWildcardsMap f ↔ _
    unfold localWildcardsMap
    constructor
    · intro h
      rcases List.mem_filter.mp h with ⟨hmem, hne⟩
      rcases List.mem_map.mp hmem with ⟨p, hp, hpe⟩
      simp only [Prod.mk.injEq] at hpe
      rcases hpe with ⟨h1, h2⟩
      subst h1
      refine ⟨p.2, by simpa using hp, h2.symm, ?_⟩
      simpa using hne
    · rintro ⟨l0, hmem, hl, hne⟩
      refine List.mem_filter.mpr ⟨?_, by simpa using hne⟩
      exact List.mem_map.mpr ⟨(pkg, l0), hmem, by simp [hl]⟩
  · intro v a
    cases v with
    | none => simp [parse_imported_audit]
    | some a0 =>
      rw [parse_imported_audit]
      by_cases he : (filterAuditCriteria (foreignValidCriteria f) a0).criteria.isEmpty
      · rw [if_pos he]
        simp only [List.isEmpty_iff] at he
        simp [he]
      · rw [if_neg he]
        simp only [List.isEmpty_iff] at he
        simp [he]
        constructor
        · intro h
          exact h.symm
        · intro h
          exact h.symm
  · intro v a
    cases v with
    | none => simp [parse_imported_wildcard_audit]
    | some a0 =>
      rw [parse_imported_wildcard_audit]
      by_cases he : (filterWildcardCriteria (foreignValidCriteria f) a0).criteria.isEmpty
      · rw [if_pos he]
        simp only [List.isEmpty_iff] at he
        simp [he]
      · rw [if_neg he]
        simp only [List.isEmpty_iff] at he
        simp [he]
        constructor
        · intro h
          exact h.symm
        · intro h
          exact h.symm
  · intro pkg
    show pkg ∈ ignoredAuditsOf f ↔ _
    unfold ignoredAuditsOf
    simp only [List.mem_append, mem_foldl_append, List.not_mem_nil, false_or,
      List.mem_map, List.mem_filter]
    constructor
    · rintro (⟨p, hp, v, ⟨hv, hnone⟩, hpk⟩ | ⟨p, hp, v, ⟨hv, hnone⟩, hpk⟩)
      · subst hpk
        exact Or.inl ⟨p.2, by simpa using hp, v, hv, by simpa using hnone⟩
      · subst hpk
        exact Or.inr ⟨p.2, by simpa using hp, v, hv, by simpa using hnone⟩
    · rintro (⟨l0, hp, v, hv, hnone⟩ | ⟨l0, hp, v, hv, hnone⟩)
      · exact Or.inl ⟨(pkg, l0), hp, v, ⟨hv, by simp [hnone]⟩, rfl⟩
      · exact Or.inr ⟨(pkg, l0), hp, v, ⟨hv, by simp [hnone]⟩, rfl⟩

/-! ## Claim C4 -/

theorem processPeer_some_compare (lc : SMap CriteriaEntry) (cf : ConfigFile)
    (lock : ImportsFile) (n : ImportName) (af : AuditsFile)
    {es : List CriteriaChangeError} {F : AuditsFile} {cfgI : RemoteImport}
    {ex : AuditsFile}
    (h : processPeer lc cf lock false n af = some (es, F))
    (g1 : smGet cf.imports n = some cfgI) (g2 : smGet lock.audits n = some ex) :
    compareCriteria n (rewriteFile lc cfgI af).criteria ex.criteria = some es := by
  unfold processPeer at h
  rw [g1] at h
  simp only at h
  rw [g2] at h
  simp only [Bool.false_eq_true, if_false] at h
  cases hc : compareCriteria n (rewriteFile lc cfgI af).criteria ex.criteria with
  | none => rw [hc] at h; simp at h
  | some changed =>
    rw [hc] at h
    simp only [Option.some.injEq, Prod.mk.injEq] at h
    rw [h.1]

theorem mem_peerErrorsD_iff (lc : SMap CriteriaEntry) (cf : ConfigFile)
    (lock : ImportsFile) (p : ImportName × AuditsFile)
    (hsucc : ∃ res, processPeer lc cf lock false p.1 p.2 = some res)
    (e : CriteriaChangeError) :
    e ∈ peerErrorsD lc cf lock false p ↔ peerMismatchDiag lc cf lock p e := by
  rcases hsucc with ⟨⟨es2, F⟩, hpp⟩
  unfold peerErrorsD
  unfold peerMismatchDiag
  cases g1 : smGet cf.imports p.1 with
  | none =>
    have hF : False := by
      unfold processPeer at hpp
      rw [g1] at hpp
      simp at hpp
    exact hF.elim
  | some cfgI =>
    simp only
    cases g2 : smGet lock.audits p.1 with
    | none =>
      simp only [List.not_mem_nil, false_iff]
      rintro ⟨cfgI2, ex2, hg1, hg2, _⟩
      exact absurd hg2 (by simp)
    | some ex =>
      simp only [Bool.false_eq_true, if_false]
      have hcomp := processPeer_some_compare lc cf lock p.1 p.2 hpp g1 g2
      rw [hcomp]
      simp only [Option.getD_some]
      rw [compareCriteria_some_mem p.1 (rewriteFile lc cfgI p.2).criteria ex.criteria es2 hcomp e]
      constructor
      · intro hm
        exact ⟨cfgI, ex, rfl, rfl, hm⟩
      · rintro ⟨cfgI2, ex2, hg1, hg2, hm⟩
        cases hg1
        cases hg2
        exact hm

/-- Claim C4: with `allow_criteria_changes = false`, reconciliation compares
each retained criterion's description with the prior lock's; every mismatch
produces a `CriteriaChange` diagnostic carrying the unified diff, diagnostics
are accumulated across all peers and criteria rather than failing fast, and
`process_imported_audits` returns the aggregated error if and only if at
least one mismatch exists. -/
theorem claim_C4_criteria_change_errors
    (fetched : List (ImportName × AuditsFile)) (local_audits_file : AuditsFile)
    (config_file : ConfigFile) (imports_lock : ImportsFile)
    (r : Except CriteriaChangeErrors ImportsFile)
    (h : process_imported_audits fetched local_audits_file config_file imports_lock false
      = some r) :
    ((∃ es, r = Except.error es) ↔
      ∃ p ∈ fetched, peerMismatch local_audits_file.criteria config_file imports_lock p) ∧
    (∀ es, r = Except.error es → es.errors ≠ []) ∧
    (∀ es e, r = Except.error es → e ∈ es.errors →
      ∃ p ∈ fetched,
        peerMismatchDiag local_audits_file.criteria config_file imports_lock p e) ∧
    (∀ es e, r = Except.error es →
      (∃ p ∈ fetched,
        peerMismatchDiag local_audits_file.criteria config_file imports_lock p e) →
      e ∈ es.errors) := by
  unfold process_imported_audits at h
  cases hl : processLoop local_audits_file.criteria config_file imports_lock false
      fetched [] [] with
  | none => rw [hl] at h; simp at h
  | some out =>
    rcases out with ⟨am, ch⟩
    rw [hl] at h
    simp only at h
    have hch := processLoop_changed local_audits_file.criteria config_file imports_lock false
      fetched [] [] ch am hl
    simp only [List.nil_append] at hch
    have hmemiff : ∀ e, e ∈ ch ↔ ∃ p ∈ fetched,
        peerMismatchDiag local_audits_file.criteria config_file imports_lock p e := by
      intro e
      rw [hch, List.mem_flatten]
      constructor
      · rintro ⟨l, hl2, hel⟩
        rcases List.mem_map.mp hl2 with ⟨p, hp, rfl⟩
        refine ⟨p, hp, ?_⟩
        rw [← mem_peerErrorsD_iff local_audits_file.criteria config_file imports_lock p
          (processLoop_success_peers _ _ _ _ fetched [] [] _ hl p hp) e]
        exact hel
      · rintro ⟨p, hp, hdiag⟩
        refine ⟨peerErrorsD local_audits_file.criteria config_file imports_lock false p,
          List.mem_map.mpr ⟨p, hp, rfl⟩, ?_⟩
        rw [mem_peerErrorsD_iff local_audits_file.criteria config_file imports_lock p
          (processLoop_success_peers _ _ _ _ fetched [] [] _ hl p hp) e]
        exact hdiag
    by_cases hche : ch.isEmpty
    · rw [if_pos hche] at h
      have hr : r = Except.ok { publisher := [], audits := am } := by
        cases h
        rfl
      have hchnil : ch = [] := List.isEmpty_iff.mp hche
      refine ⟨?_, ?_, ?_, ?_⟩
      · constructor
        · rintro ⟨es, hes⟩
          rw [hr] at hes
          exact absurd hes (by simp)
        · rintro ⟨p, hp, e, hdiag⟩
          have : e ∈ ch := (hmemiff e).mpr ⟨p, hp, hdiag⟩
          rw [hchnil] at this
          simp at this
      · intro es hes
        rw [hr] at hes
        exact absurd hes (by simp)
      · intro es e hes
        rw [hr] at hes
        exact absurd hes (by simp)
      · intro es e hes
        rw [hr] at hes
        exact absurd hes (by simp)
    · rw [if_neg hche] at h
      have hr : r = Except.error { errors := ch } := by
        cases h
        rfl
      refine ⟨?_, ?_, ?_, ?_⟩
      · constructor
        · rintro ⟨es, _⟩
          have hne : ch ≠ [] := fun hnil => hche (by simp [hnil])
          rcases List.exists_mem_of_ne_nil ch hne with ⟨e, he⟩
          rcases (hmemiff e).mp he with ⟨p, hp, hdiag⟩
          exact ⟨p, hp, e, hdiag⟩
        · intro _
          exact ⟨{ errors := ch }, hr⟩
      · intro es hes
        rw [hr] at hes
        cases hes
        simpa using fun hnil => hche (by simp [hnil])
      · intro es e hes he
        rw [hr] at hes
        cases hes
        exact (hmemiff e).mp he
      · intro es e hes hdiag
        rw [hr] at hes
        cases hes
        exact (hmemiff e).mpr hdiag

/-- Witness for C4 at the S3 scenario (prior description B, fetched
description A). -/
theorem claim_C4_criteria_change_errors_witness :
    ∃ p ∈ wit_fetched,
      peerMismatch wit_localAudits.criteria wit_config wit_priorLockB p := by
  have h := claim_C4_criteria_change_errors wit_fetched wit_localAudits wit_config
    wit_priorLockB (Except.error { errors := [wit_diagBA] }) (by rfl)
  exact h.1.mp ⟨_, rfl⟩

/-! ## Claim C10 -/

theorem processPeer_none_of_missing_desc (lc : SMap CriteriaEntry) (cf : ConfigFile)
    (lock : ImportsFile) (n : ImportName) (af : AuditsFile) (cfgI : RemoteImport)
    (ex : AuditsFile)
    (g1 : smGet cf.imports n = some cfgI) (g2 : smGet lock.audits n = some ex)
    (hbad : ∃ q ∈ ex.criteria, ∃ newE,
      smGet (rewriteFile lc cfgI af).criteria q.1 = some newE ∧
      (q.2.description = none ∨ newE.description = none)) :
    processPeer lc cf lock false n af = none := by
  unfold processPeer
  rw [g1]
  simp only
  rw [g2]
  simp only [Bool.false_eq_true, if_false]
  rw [compareCriteria_none n (rewriteFile lc cfgI af).criteria ex.criteria hbad]

theorem processLoop_none_of_badPeer (lc : SMap CriteriaEntry) (cf : ConfigFile)
    (lock : ImportsFile) :
    ∀ (fetched : List (ImportName × AuditsFile)) (acc : SMap AuditsFile)
      (ch : List CriteriaChangeError),
    (∃ p ∈ fetched, processPeer lc cf lock false p.1 p.2 = none) →
    processLoop lc cf lock false fetched acc ch = none := by
  intro fetched
  induction fetched with
  | nil => intro acc ch h; simp at h
  | cons q rest ih =>
    intro acc ch h
    rcases q with ⟨n, af⟩
    rcases h with ⟨p, hp, hnone⟩
    rcases List.mem_cons.mp hp with hh | hh
    · subst hh
      rw [processLoop, hnone]
    · cases hq : processPeer lc cf lock false n af with
      | none => rw [processLoop, hq]
      | some res =>
        rcases res with ⟨es, F⟩
        rw [processLoop, hq]
        exact ih _ _ ⟨p, hh, hnone⟩

/-- Claim C10: `process_imported_audits` is partial on criteria descriptions:
with `allow_criteria_changes = false`, it unwraps the descriptions of both the
prior and the retained new entry of every criterion present in both, so it
panics (modelled as `none`) whenever such a criterion has a missing
description on either side; it is total when every such criterion carries a
description (given every fetched peer has an import config). -/
theorem claim_C10_description_unwrap_partial :
    (∀ (fetched : List (ImportName × AuditsFile)) (lcf : AuditsFile) (cf : ConfigFile)
       (lock : ImportsFile),
      (∀ p ∈ fetched, (smGet cf.imports p.1).isSome) →
      (∀ p ∈ fetched, ∀ cfgI existing, smGet cf.imports p.1 = some cfgI →
        smGet lock.audits p.1 = some existing →
        ∀ q ∈ existing.criteria, ∀ newE,
          smGet (rewriteFile lcf.criteria cfgI p.2).criteria q.1 = some newE →
          q.2.description.isSome ∧ newE.description.isSome) →
      (process_imported_audits fetched lcf cf lock false).isSome) ∧
    (∀ (fetched : List (ImportName × AuditsFile)) (lcf : AuditsFile) (cf : ConfigFile)
       (lock : ImportsFile),
      (∃ p ∈ fetched, ∃ cfgI existing, smGet cf.imports p.1 = some cfgI ∧
        smGet lock.audits p.1 = some existing ∧
        ∃ q ∈ existing.criteria, ∃ newE,
          smGet (rewriteFile lcf.criteria cfgI p.2).criteria q.1 = some newE ∧
          (q.2.description = none ∨ newE.description = none)) →
      process_imported_audits fetched lcf cf lock false = none) := by
  constructor
  · intro fetched lcf cf lock hcfg hdesc
    unfold process_imported_audits
    have hall : ∀ p ∈ fetched, (processPeer lcf.criteria cf lock false p.1 p.2).isSome := by
      intro p hp
      rcases Option.isSome_iff_exists.mp (hcfg p hp) with ⟨cfgI, g1⟩
      unfold processPeer
      rw [g1]
      simp only
      cases g2 : smGet lock.audits p.1 with
      | none => simp
      | some ex =>
        simp only [Bool.false_eq_true, if_false]
        have hcomp := compareCriteria_isSome p.1 (rewriteFile lcf.criteria cfgI p.2).criteria
          ex.criteria (fun q hq newE hget => hdesc p hp cfgI ex g1 g2 q hq newE hget)
        rcases Option.isSome_iff_exists.mp hcomp with ⟨changed, hc⟩
        rw [hc]
        simp
    rcases Option.isSome_iff_exists.mp
      (processLoop_isSome lcf.criteria cf lock false fetched [] [] hall) with ⟨out, hout⟩
    rw [hout]
    rcases out with ⟨am, ch⟩
    by_cases hche : ch.isEmpty <;> simp [hche]
  · intro fetched lcf cf lock hbad
    unfold process_imported_audits
    rcases hbad with ⟨p, hp, cfgI, ex, g1, g2, hq⟩
    rw [processLoop_none_of_badPeer lcf.criteria cf lock fetched [] []
      ⟨p, hp, processPeer_none_of_missing_desc lcf.criteria cf lock p.1 p.2 cfgI ex g1 g2 hq⟩]

/-- Witness for C10: the missing-description prior lock panics, the S2 prior
lock does not. -/
theorem claim_C10_description_unwrap_partial_witness :
    process_imported_audits wit_fetched wit_localAudits wit_config wit_priorLockNone false
      = none ∧
    (process_imported_audits wit_fetched wit_localAudits wit_config wit_emptyLock
      false).isSome := by
  constructor
  · apply claim_C10_description_unwrap_partial.2
    refine ⟨("p", wit_fetchedFile), List.mem_cons_self _ _, wit_peerCfg, wit_lockNoneFile,
      rfl, rfl, ("strong-reviewed", wit_strongNone), List.mem_cons_self _ _,
      wit_strongA, rfl, Or.inl rfl⟩
  · apply claim_C10_description_unwrap_partial.1
    · intro p hp
      rcases List.mem_cons.mp hp with hh | hh
      · rw [hh]
        rfl
      · simp at hh
    · intro p hp cfgI ex g1 g2
      exact absurd g2 (by simp [wit_emptyLock, smGet])

/-! ## Claim C2 -/

theorem markFile_audits (ex af : AuditsFile) :
    (markFile ex af).audits = markMap (fun e : AuditEntry => e.is_fresh_import)
      AuditEntry.eraseFresh ex.audits af.audits := rfl

theorem markFile_wildcards (ex af : AuditsFile) :
    (markFile ex af).wildcard_audits = markMap (fun e : WildcardEntry => e.is_fresh_import)
      WildcardEntry.eraseFresh ex.wildcard_audits af.wildcard_audits := rfl

theorem markFile_criteria (ex af : AuditsFile) :
    (markFile ex af).criteria = af.criteria := rfl

theorem processPeer_config_isSome {lc : SMap CriteriaEntry} {cf : ConfigFile}
    {lock : ImportsFile} {allow : Bool} {n : ImportName} {af : AuditsFile}
    {res : List CriteriaChangeError × AuditsFile}
    (h : processPeer lc cf lock allow n af = some res) :
    (smGet cf.imports n).isSome := by
  unfold processPeer at h
  cases g : smGet cf.imports n with
  | none => rw [g] at h; simp at h
  | some cfgI => simp

theorem process_ok_structure
    (fetched : List (ImportName × AuditsFile)) (lcf : AuditsFile) (cf : ConfigFile)
    (lock : ImportsFile) (allow : Bool) (L : ImportsFile)
    (hnd : (fetched.map (fun p => p.1)).Nodup)
    (h : process_imported_audits fetched lcf cf lock allow = some (Except.ok L)) :
    L = { publisher := [],
          audits := fetched.map (fun p => (p.1, peerFileD lcf.criteria cf lock p)) } ∧
    ∀ p ∈ fetched, ∃ res, processPeer lcf.criteria cf lock allow p.1 p.2 = some res := by
  unfold process_imported_audits at h
  cases hl : processLoop lcf.criteria cf lock allow fetched [] [] with
  | none => rw [hl] at h; simp at h
  | some out =>
    rcases out with ⟨am, ch⟩
    rw [hl] at h
    simp only at h
    by_cases hche : ch.isEmpty
    · rw [if_pos hche] at h
      simp only [Option.some.injEq, Except.ok.injEq] at h
      have ham := processLoop_out lcf.criteria cf lock allow fetched [] [] ch am hnd
        (by simp [smKeys]) hl
      refine ⟨?_, fun p hp =>
        processLoop_success_peers lcf.criteria cf lock allow fetched [] [] _ hl p hp⟩
      rw [← h, ham]
      simp
    · rw [if_neg hche] at h
      simp at h

/-- Claim C2: after reconciliation every audit and wildcard-audit entry of the
new imports-lock is fresh by default: a peer with no prior lock entry has only
fresh entries, every non-fresh entry is justified by a structurally equal
(`same_audit_as`) audit in the prior lock entry for the same peer and package,
and whenever a prior audit has any structurally equal entry in the new list,
some such entry has its freshness flag cleared. -/
theorem claim_C2_freshness_marking
    (fetched : List (ImportName × AuditsFile)) (local_audits_file : AuditsFile)
    (config_file : ConfigFile) (imports_lock : ImportsFile) (allow : Bool)
    (L : ImportsFile)
    (hnd : (fetched.map (fun p => p.1)).Nodup)
    (h : process_imported_audits fetched local_audits_file config_file imports_lock allow
      = some (Except.ok L)) :
    ∀ n F, (n, F) ∈ L.audits →
      (smGet imports_lock.audits n = none →
        (∀ pkg l, smGet F.audits pkg = some l → ∀ e ∈ l, e.is_fresh_import = true) ∧
        (∀ pkg l, smGet F.wildcard_audits pkg = some l →
          ∀ e ∈ l, e.is_fresh_import = true)) ∧
      (∀ pkg l e, smGet F.audits pkg = some l → e ∈ l → e.is_fresh_import = false →
        ∃ P lex x, smGet imports_lock.audits n = some P ∧ (pkg, lex) ∈ P.audits ∧
          x ∈ lex ∧ e.same_audit_as x = true) ∧
      (∀ pkg l e, smGet F.wildcard_audits pkg = some l → e ∈ l →
          e.is_fresh_import = false →
        ∃ P lex x, smGet imports_lock.audits n = some P ∧
          (pkg, lex) ∈ P.wildcard_audits ∧ x ∈ lex ∧ e.same_audit_as x = true) ∧
      (∀ P pkg lex x, smGet imports_lock.audits n = some P →
        smGet P.audits pkg = some lex → x ∈ lex →
        (∃ l, smGet F.audits pkg = some l ∧ ∃ m2 ∈ l, m2.same_audit_as x = true) →
        (∃ l, smGet F.audits pkg = some l ∧ ∃ m2 ∈ l, m2.same_audit_as x = true ∧
          m2.is_fresh_import = false)) ∧
      (∀ P pkg lex x, smGet imports_lock.audits n = some P →
        smGet P.wildcard_audits pkg = some lex → x ∈ lex →
        (∃ l, smGet F.wildcard_audits pkg = some l ∧
          ∃ m2 ∈ l, m2.same_audit_as x = true) →
        (∃ l, smGet F.wildcard_audits pkg = some l ∧
          ∃ m2 ∈ l, m2.same_audit_as x = true ∧ m2.is_fresh_import = false)) := by
  rcases process_ok_structure fetched local_audits_file config_file imports_lock allow L
    hnd h with ⟨hL, hsucc⟩
  intro n F hmem
  rw [hL] at hmem
  simp only at hmem
  rcases List.mem_map.mp hmem with ⟨p, hp, hpe⟩
  have hn : p.1 = n := congrArg Prod.fst hpe
  have hF : peerFileD local_audits_file.criteria config_file imports_lock p = F :=
    congrArg Prod.snd hpe
  rcases hsucc p hp with ⟨res, hres⟩
  rcases Option.isSome_iff_exists.mp (processPeer_config_isSome hres) with ⟨cfgI, g1⟩
  subst hn
  unfold peerFileD at hF
  rw [g1] at hF
  simp only at hF
  cases g2 : smGet imports_lock.audits p.1 with
  | none =>
    try rw [g2] at hF
    have hF2 : rewriteFile local_audits_file.criteria cfgI p.2 = F := by
      rw [← hF]
    subst hF2
    refine ⟨?_, ?_, ?_, ?_, ?_⟩
    · intro _
      exact ⟨fun pkg l hl => rewriteFile_audits_fresh _ _ _ pkg l hl,
             fun pkg l hl => rewriteFile_wildcards_fresh _ _ _ pkg l hl⟩
    · intro pkg l e hl hel hef
      have := rewriteFile_audits_fresh _ _ _ pkg l hl e hel
      rw [this] at hef
      exact absurd hef (by simp)
    · intro pkg l e hl hel hef
      have := rewriteFile_wildcards_fresh _ _ _ pkg l hl e hel
      rw [this] at hef
      exact absurd hef (by simp)
    · intro P pkg lex x hP
      exact absurd hP (by simp)
    · intro P pkg lex x hP
      exact absurd hP (by simp)
  | some ex =>
    try rw [g2] at hF
    have hF2 : markFile ex (rewriteFile local_audits_file.criteria cfgI p.2) = F := by
      rw [← hF]
    subst hF2
    refine ⟨?_, ?_, ?_, ?_, ?_⟩
    · intro hnone
      exact absurd hnone (by simp)
    · intro pkg l e hl hel hef
      rw [markFile_audits, smGet_markMap] at hl
      rcases Option.map_eq_some'.mp hl with ⟨l0, hl0, rfl⟩
      have hfresh := rewriteFile_audits_fresh _ _ _ pkg l0 hl0
      rcases mem_markList_not_fresh (fun e : AuditEntry => e.is_fresh_import)
          AuditEntry.eraseFresh auditEntry_eraseFresh_idem _ hel hef with
        hcase | ⟨hmem0, hf0⟩
      · rcases hcase with ⟨x, hx, her⟩
        rcases mem_collectEx.mp hx with ⟨pex, hpex, hkey, hxin⟩
        refine ⟨ex, pex.2, x, rfl, ?_, hxin, ?_⟩
        · have : pex = (pkg, pex.2) := Prod.ext hkey rfl
          rw [← this]
          exact hpex
        · rw [AuditEntry.same_audit_as]
          exact beq_iff_eq.mpr her
      · rw [hfresh e hmem0] at hf0
        exact absurd hf0 (by simp)
    · intro pkg l e hl hel hef
      rw [markFile_wildcards, smGet_markMap] at hl
      rcases Option.map_eq_some'.mp hl with ⟨l0, hl0, rfl⟩
      have hfresh := rewriteFile_wildcards_fresh _ _ _ pkg l0 hl0
      rcases mem_markList_not_fresh (fun e : WildcardEntry => e.is_fresh_import)
          WildcardEntry.eraseFresh wildcardEntry_eraseFresh_idem _ hel hef with
        hcase | ⟨hmem0, hf0⟩
      · rcases hcase with ⟨x, hx, her⟩
        rcases mem_collectEx.mp hx with ⟨pex, hpex, hkey, hxin⟩
        refine ⟨ex, pex.2, x, rfl, ?_, hxin, ?_⟩
        · have : pex = (pkg, pex.2) := Prod.ext hkey rfl
          rw [← this]
          exact hpex
        · rw [WildcardEntry.same_audit_as]
          exact beq_iff_eq.mpr her
      · rw [hfresh e hmem0] at hf0
        exact absurd hf0 (by simp)
    · intro P pkg lex x hP hlex hx hexists
      cases hP
      rcases hexists with ⟨l, hl, m2, hm2, hsame⟩
      rw [markFile_audits, smGet_markMap] at hl
      rcases Option.map_eq_some'.mp hl with ⟨l0, hl0, rfl⟩
      have hxEX : x ∈ collectEx ex.audits pkg :=
        mem_collectEx.mpr ⟨(pkg, lex), mem_of_smGet hlex, rfl, hx⟩
      have hmatch0 : ∃ m ∈ markList (fun e : AuditEntry => e.is_fresh_import)
          AuditEntry.eraseFresh (collectEx ex.audits pkg) l0,
          m.eraseFresh = x.eraseFresh := by
        refine ⟨m2, hm2, ?_⟩
        rw [AuditEntry.same_audit_as] at hsame
        exact beq_iff_eq.mp hsame
      rcases exists_nonfresh_match_markList (fun e : AuditEntry => e.is_fresh_import)
          AuditEntry.eraseFresh auditEntry_fresh_eraseFresh auditEntry_eraseFresh_idem
          hxEX (by
            rcases hmatch0 with ⟨m, hm, hme⟩
            have : AuditEntry.eraseFresh m ∈ l0.map AuditEntry.eraseFresh := by
              rw [← markList_map_erase (fun e : AuditEntry => e.is_fresh_import)
                AuditEntry.eraseFresh auditEntry_eraseFresh_idem (collectEx ex.audits pkg) l0]
              exact List.mem_map.mpr ⟨m, hm, rfl⟩
            rcases List.mem_map.mp this with ⟨m0, hm0, hm0e⟩
            exact ⟨m0, hm0, hm0e.trans hme⟩) with ⟨m3, hm3, hm3e, hm3f⟩
      refine ⟨_, by rw [markFile_audits, smGet_markMap, hl0]; rfl, m3, hm3, ?_, hm3f⟩
      rw [AuditEntry.same_audit_as]
      exact beq_iff_eq.mpr hm3e
    · intro P pkg lex x hP hlex hx hexists
      cases hP
      rcases hexists with ⟨l, hl, m2, hm2, hsame⟩
      rw [markFile_wildcards, smGet_markMap] at hl
      rcases Option.map_eq_some'.mp hl with ⟨l0, hl0, rfl⟩
      have hxEX : x ∈ collectEx ex.wildcard_audits pkg :=
        mem_collectEx.mpr ⟨(pkg, lex), mem_of_smGet hlex, rfl, hx⟩
      have hmatch0 : ∃ m ∈ markList (fun e : WildcardEntry => e.is_fresh_import)
          WildcardEntry.eraseFresh (collectEx ex.wildcard_audits pkg) l0,
          m.eraseFresh = x.eraseFresh := by
        refine ⟨m2, hm2, ?_⟩
        rw [WildcardEntry.same_audit_as] at hsame
        exact beq_iff_eq.mp hsame
      rcases exists_nonfresh_match_markList (fun e : WildcardEntry => e.is_fresh_import)
          WildcardEntry.eraseFresh wildcardEntry_fresh_eraseFresh wildcardEntry_eraseFresh_idem
          hxEX (by
            rcases hmatch0 with ⟨m, hm, hme⟩
            have : WildcardEntry.eraseFresh m ∈ l0.map WildcardEntry.eraseFresh := by
              rw [← markList_map_erase (fun e : WildcardEntry => e.is_fresh_import)
                WildcardEntry.eraseFresh wildcardEntry_eraseFresh_idem
                (collectEx ex.wildcard_audits pkg) l0]
              exact List.mem_map.mpr ⟨m, hm, rfl⟩
            rcases List.mem_map.mp this with ⟨m0, hm0, hm0e⟩
            exact ⟨m0, hm0, hm0e.trans hme⟩) with ⟨m3, hm3, hm3e, hm3f⟩
      refine ⟨_, by rw [markFile_wildcards, smGet_markMap, hl0]; rfl, m3, hm3, ?_, hm3f⟩
      rw [WildcardEntry.same_audit_as]
      exact beq_iff_eq.mpr hm3e

/-- Witness for C2 at the S1 scenario (empty prior lock). -/
theorem claim_C2_freshness_marking_witness :
    (smGet wit_emptyLock.audits "p" = none →
      (∀ pkg l, smGet wit_L1File.audits pkg = some l →
        ∀ e ∈ l, e.is_fresh_import = true) ∧
      (∀ pkg l, smGet wit_L1File.wildcard_audits pkg = some l →
        ∀ e ∈ l, e.is_fresh_import = true)) ∧
    (∀ pkg l e, smGet wit_L1File.audits pkg = some l → e ∈ l →
        e.is_fresh_import = false →
      ∃ P lex x, smGet wit_emptyLock.audits "p" = some P ∧ (pkg, lex) ∈ P.audits ∧
        x ∈ lex ∧ e.same_audit_as x = true) ∧
    (∀ pkg l e, smGet wit_L1File.wildcard_audits pkg = some l → e ∈ l →
        e.is_fresh_import = false →
      ∃ P lex x, smGet wit_emptyLock.audits "p" = some P ∧
        (pkg, lex) ∈ P.wildcard_audits ∧ x ∈ lex ∧ e.same_audit_as x = true) ∧
    (∀ P pkg lex x, smGet wit_emptyLock.audits "p" = some P →
      smGet P.audits pkg = some lex → x ∈ lex →
      (∃ l, smGet wit_L1File.audits pkg = some l ∧
        ∃ m2 ∈ l, m2.same_audit_as x = true) →
      (∃ l, smGet wit_L1File.audits pkg = some l ∧
        ∃ m2 ∈ l, m2.same_audit_as x = true ∧ m2.is_fresh_import = false)) ∧
    (∀ P pkg lex x, smGet wit_emptyLock.audits "p" = some P →
      smGet P.wildcard_audits pkg = some lex → x ∈ lex →
      (∃ l, smGet wit_L1File.wildcard_audits pkg = some l ∧
        ∃ m2 ∈ l, m2.same_audit_as x = true) →
      (∃ l, smGet wit_L1File.wildcard_audits pkg = some l ∧
        ∃ m2 ∈ l, m2.same_audit_as x = true ∧ m2.is_fresh_import = false)) :=
  claim_C2_freshness_marking wit_fetched wit_localAudits wit_config wit_emptyLock false
    wit_L1 (by decide) (by rfl) "p" wit_L1File (List.mem_cons_self _ _)

/-! ## Claim C5: helper lemmas -/

theorem rewriteFile_audits_fresh_mem (lc : SMap CriteriaEntry) (cfg : RemoteImport)
    (af : AuditsFile) :
    ∀ pr ∈ (rewriteFile lc cfg af).audits, ∀ e ∈ pr.2, e.is_fresh_import = true := by
  intro pr hpr e he
  rw [rewriteFile_audits] at hpr
  rcases List.mem_map.mp hpr with ⟨q, _, rfl⟩
  rcases List.mem_map.mp he with ⟨e0, _, rfl⟩
  rfl

theorem rewriteFile_wildcards_fresh_mem (lc : SMap CriteriaEntry) (cfg : RemoteImport)
    (af : AuditsFile) :
    ∀ pr ∈ (rewriteFile lc cfg af).wildcard_audits, ∀ e ∈ pr.2, e.is_fresh_import = true := by
  intro pr hpr e he
  rw [rewriteFile_wildcards] at hpr
  rcases List.mem_map.mp hpr with ⟨q, _, rfl⟩
  rcases List.mem_map.mp he with ⟨e0, _, rfl⟩
  rfl

theorem eraseAuditsFile_markFile (ex af : AuditsFile) :
    eraseAuditsFile (markFile ex af) = eraseAuditsFile af := by
  unfold eraseAuditsFile
  rw [markFile_criteria, markFile_audits, markFile_wildcards]
  rw [smMapVal_erase_markMap _ _ auditEntry_eraseFresh_idem,
    smMapVal_erase_markMap _ _ wildcardEntry_eraseFresh_idem]

theorem eraseAuditsFile_ext (a b : AuditsFile) (hc : a.criteria = b.criteria)
    (ha : smMapVal (List.map AuditEntry.eraseFresh) a.audits
      = smMapVal (List.map AuditEntry.eraseFresh) b.audits)
    (hw : smMapVal (List.map WildcardEntry.eraseFresh) a.wildcard_audits
      = smMapVal (List.map WildcardEntry.eraseFresh) b.wildcard_audits) :
    eraseAuditsFile a = eraseAuditsFile b := by
  unfold eraseAuditsFile
  rw [hc, ha, hw]

theorem smMapVal_map_erase_idem {α : Type} (er : α → α) (h : ∀ a, er (er a) = er a)
    (m : SMap (List α)) :
    smMapVal (List.map er) (smMapVal (List.map er) m) = smMapVal (List.map er) m := by
  induction m with
  | nil => rfl
  | cons p rest ih =>
    have hl : List.map er (List.map er p.2) = List.map er p.2 := by
      rw [List.map_map]
      exact List.map_congr_left (fun a _ => h a)
    simp only [smMapVal, List.map_cons] at *
    rw [hl, ih]

theorem eraseAuditsFile_idem (af : AuditsFile) :
    eraseAuditsFile (eraseAuditsFile af) = eraseAuditsFile af := by
  have ha := smMapVal_map_erase_idem AuditEntry.eraseFresh auditEntry_eraseFresh_idem
    af.audits
  have hw := smMapVal_map_erase_idem WildcardEntry.eraseFresh wildcardEntry_eraseFresh_idem
    af.wildcard_audits
  show AuditsFile.mk af.criteria
      (smMapVal (List.map WildcardEntry.eraseFresh)
        (smMapVal (List.map WildcardEntry.eraseFresh) af.wildcard_audits))
      (smMapVal (List.map AuditEntry.eraseFresh)
        (smMapVal (List.map AuditEntry.eraseFresh) af.audits))
    = eraseAuditsFile af
  rw [ha, hw]
  rfl

theorem allFalse_eraseAuditsFile (af : AuditsFile) : allFalseFile (eraseAuditsFile af) := by
  constructor
  · intro p hp e he
    rcases List.mem_map.mp hp with ⟨q, _, rfl⟩
    rcases List.mem_map.mp he with ⟨e0, _, rfl⟩
    exact auditEntry_fresh_eraseFresh e0
  · intro p hp e he
    rcases List.mem_map.mp hp with ⟨q, _, rfl⟩
    rcases List.mem_map.mp he with ⟨e0, _, rfl⟩
    exact wildcardEntry_fresh_eraseFresh e0

theorem markFile_eq_erase (E R : AuditsFile)
    (hknA : (smKeys R.audits).Nodup) (hknW : (smKeys R.wildcard_audits).Nodup)
    (heA : smMapVal (List.map AuditEntry.eraseFresh) E.audits
      = smMapVal (List.map AuditEntry.eraseFresh) R.audits)
    (heW : smMapVal (List.map WildcardEntry.eraseFresh) E.wildcard_audits
      = smMapVal (List.map WildcardEntry.eraseFresh) R.wildcard_audits)
    (hfA : ∀ pr ∈ R.audits, ∀ e ∈ pr.2, e.is_fresh_import = true)
    (hfW : ∀ pr ∈ R.wildcard_audits, ∀ e ∈ pr.2, e.is_fresh_import = true) :
    markFile E R = eraseAuditsFile R := by
  unfold markFile eraseAuditsFile
  rw [markMap_eq_erase _ _ auditEntry_fresh_eraseFresh auditEntry_eraseFresh_idem
      E.audits R.audits hknA heA hfA,
    markMap_eq_erase _ _ wildcardEntry_fresh_eraseFresh wildcardEntry_eraseFresh_idem
      E.wildcard_audits R.wildcard_audits hknW heW hfW]

theorem peerFileD_criteria (lc : SMap CriteriaEntry) (cf : ConfigFile)
    (lock : ImportsFile) (p : ImportName × AuditsFile) (cfgI : RemoteImport)
    (g1 : smGet cf.imports p.1 = some cfgI) :
    (peerFileD lc cf lock p).criteria = (rewriteFile lc cfgI p.2).criteria := by
  unfold peerFileD
  rw [g1]
  simp only
  cases g2 : smGet lock.audits p.1 with
  | none => rfl
  | some ex => rw [markFile_criteria]

theorem peerFileD_erase_audits (lc : SMap CriteriaEntry) (cf : ConfigFile)
    (lock : ImportsFile) (p : ImportName × AuditsFile) (cfgI : RemoteImport)
    (g1 : smGet cf.imports p.1 = some cfgI) :
    smMapVal (List.map AuditEntry.eraseFresh) (peerFileD lc cf lock p).audits
      = smMapVal (List.map AuditEntry.eraseFresh) (rewriteFile lc cfgI p.2).audits := by
  unfold peerFileD
  rw [g1]
  simp only
  cases g2 : smGet lock.audits p.1 with
  | none => rfl
  | some ex =>
    rw [markFile_audits]
    exact smMapVal_erase_markMap _ _ auditEntry_eraseFresh_idem _ _

theorem peerFileD_erase_wildcards (lc : SMap CriteriaEntry) (cf : ConfigFile)
    (lock : ImportsFile) (p : ImportName × AuditsFile) (cfgI : RemoteImport)
    (g1 : smGet cf.imports p.1 = some cfgI) :
    smMapVal (List.map WildcardEntry.eraseFresh) (peerFileD lc cf lock p).wildcard_audits
      = smMapVal (List.map WildcardEntry.eraseFresh)
        (rewriteFile lc cfgI p.2).wildcard_audits := by
  unfold peerFileD
  rw [g1]
  simp only
  cases g2 : smGet lock.audits p.1 with
  | none => rfl
  | some ex =>
    rw [markFile_wildcards]
    exact smMapVal_erase_markMap _ _ wildcardEntry_eraseFresh_idem _ _

theorem peerFileD_eq_markFile (lc : SMap CriteriaEntry) (cf : ConfigFile)
    (L1 : ImportsFile) (p : ImportName × AuditsFile) (cfgI : RemoteImport)
    (Ep : AuditsFile) (g1 : smGet cf.imports p.1 = some cfgI)
    (g2 : smGet L1.audits p.1 = some Ep) :
    peerFileD lc cf L1 p = markFile Ep (rewriteFile lc cfgI p.2) := by
  unfold peerFileD
  rw [g1]
  simp only
  rw [g2]

theorem processPeer_second_run (lc : SMap CriteriaEntry) (cf : ConfigFile)
    (L1 : ImportsFile) (allow : Bool) (p : ImportName × AuditsFile)
    (cfgI : RemoteImport) (Ep : AuditsFile)
    (g1 : smGet cf.imports p.1 = some cfgI)
    (g2 : smGet L1.audits p.1 = some Ep)
    (hcrit : Ep.criteria = (rewriteFile lc cfgI p.2).criteria)
    (hknd : (smKeys (rewriteFile lc cfgI p.2).criteria).Nodup)
    (hdesc2 : ∀ q ∈ (rewriteFile lc cfgI p.2).criteria, q.2.description.isSome) :
    processPeer lc cf L1 allow p.1 p.2
      = some ([], markFile Ep (rewriteFile lc cfgI p.2)) := by
  unfold processPeer
  rw [g1]
  simp only
  rw [g2]
  simp only
  have hcomp : compareCriteria p.1 (rewriteFile lc cfgI p.2).criteria Ep.criteria
      = some [] := by
    rw [hcrit]
    exact compareCriteria_self _ _ _ (fun q hq => smGet_eq_some_of_mem_nodup hknd hq) hdesc2
  cases allow <;> simp [hcomp]

theorem smMapVal_map_pairs {α β γ : Type} (g : β → γ) (l : List α)
    (key : α → String) (f : α → β) :
    smMapVal g (l.map (fun p => (key p, f p))) = l.map (fun p => (key p, g (f p))) := by
  simp only [smMapVal, List.map_map]
  rfl

theorem flatten_nil_of_all {α : Type} :
    ∀ (l : List (List α)), (∀ x ∈ l, x = []) → l.flatten = [] := by
  intro l
  induction l with
  | nil => intro _; rfl
  | cons x rest ih =>
    intro h
    rw [List.flatten_cons, h x (List.mem_cons_self _ _), ih
      (fun y hy => h y (List.mem_cons_of_mem _ hy))]
    rfl

/-- Claim C5: reconciliation is idempotent.  If a first run of
`process_imported_audits` succeeds with output lock `L1`, then a second run on
the same fetched files with `L1` as the imports-lock succeeds with an output
`L2` whose persisted content (`is_fresh_import` is not serialized, so
persisted equality is equality after erasing every freshness flag) equals that
of `L1`, and every audit and wildcard-audit entry carries
`is_fresh_import = false` after the second run.  The `Nodup` hypotheses state
the key uniqueness that `BTreeMap` guarantees in the source, and the
description hypothesis is the totality precondition of claim C10. -/
theorem claim_C5_reconciliation_idempotent
    (fetched : List (ImportName × AuditsFile)) (local_audits_file : AuditsFile)
    (config_file : ConfigFile) (imports_lock : ImportsFile) (allow : Bool)
    (L1 : ImportsFile)
    (hnd : (fetched.map (fun p => p.1)).Nodup)
    (hcnd : ∀ p ∈ fetched, (smKeys p.2.criteria).Nodup)
    (hand : ∀ p ∈ fetched, (smKeys p.2.audits).Nodup)
    (hwnd : ∀ p ∈ fetched, (smKeys p.2.wildcard_audits).Nodup)
    (hdesc : ∀ p ∈ fetched, ∀ cfgI, smGet config_file.imports p.1 = some cfgI →
      ∀ q ∈ p.2.criteria, (smGet cfgI.criteria_map q.1).isSome = true →
        q.2.description.isSome = true)
    (h1 : process_imported_audits fetched local_audits_file config_file imports_lock allow
      = some (Except.ok L1)) :
    ∃ L2, process_imported_audits fetched local_audits_file config_file L1 allow
        = some (Except.ok L2) ∧
      eraseImports L2 = eraseImports L1 ∧
      ∀ n F, (n, F) ∈ L2.audits → allFalseFile F := by
  rcases process_ok_structure fetched local_audits_file config_file imports_lock allow L1
    hnd h1 with ⟨hL1, hsucc1⟩
  have hcfg : ∀ p ∈ fetched, ∃ cfgI, smGet config_file.imports p.1 = some cfgI := by
    intro p hp
    rcases hsucc1 p hp with ⟨res, hres⟩
    exact Option.isSome_iff_exists.mp (processPeer_config_isSome hres)
  have hpub : L1.publisher = [] := by rw [hL1]
  have haud : L1.audits = fetched.map
      (fun p => (p.1, peerFileD local_audits_file.criteria config_file imports_lock p)) := by
    rw [hL1]
  have hprior2 : ∀ p ∈ fetched, smGet L1.audits p.1
      = some (peerFileD local_audits_file.criteria config_file imports_lock p) := by
    intro p hp
    rw [haud]
    exact smGet_map_pair_nodup
      (fun q => peerFileD local_audits_file.criteria config_file imports_lock q) hnd hp
  have hdescR : ∀ p ∈ fetched, ∀ cfgI, smGet config_file.imports p.1 = some cfgI →
      ∀ q ∈ (rewriteFile local_audits_file.criteria cfgI p.2).criteria,
        q.2.description.isSome = true := by
    intro p hp cfgI g1 q hq
    rw [rewriteFile_criteria] at hq
    rcases List.mem_map.mp hq with ⟨q0, hq0, rfl⟩
    have hmem := List.mem_filter.mp hq0
    show (trimCriteriaEntry q0.2).description.isSome = true
    have hde : (trimCriteriaEntry q0.2).description = q0.2.description := rfl
    rw [hde]
    exact hdesc p hp cfgI g1 q0 hmem.1 hmem.2
  have hpp2 : ∀ p ∈ fetched, ∀ cfgI, smGet config_file.imports p.1 = some cfgI →
      processPeer local_audits_file.criteria config_file L1 allow p.1 p.2
        = some ([], markFile (peerFileD local_audits_file.criteria config_file imports_lock p)
            (rewriteFile local_audits_file.criteria cfgI p.2)) := by
    intro p hp cfgI g1
    exact processPeer_second_run local_audits_file.criteria config_file L1 allow p cfgI _
      g1 (hprior2 p hp)
      (peerFileD_criteria local_audits_file.criteria config_file imports_lock p cfgI g1)
      (rewriteFile_criteria_keys_nodup local_audits_file.criteria cfgI p.2 (hcnd p hp))
      (hdescR p hp cfgI g1)
  have hsome2 : (processLoop local_audits_file.criteria config_file L1 allow
      fetched [] []).isSome := by
    apply processLoop_isSome
    intro p hp
    rcases hcfg p hp with ⟨cfgI, g1⟩
    rw [hpp2 p hp cfgI g1]
    rfl
  rcases Option.isSome_iff_exists.mp hsome2 with ⟨out2, hout2⟩
  rcases out2 with ⟨am2, ch2⟩
  have hch2 : ch2 = [] := by
    rw [processLoop_changed local_audits_file.criteria config_file L1 allow
      fetched [] [] ch2 am2 hout2]
    simp only [List.nil_append]
    apply flatten_nil_of_all
    intro x hx
    rcases List.mem_map.mp hx with ⟨p, hp, rfl⟩
    rcases hcfg p hp with ⟨cfgI, g1⟩
    exact (processPeer_errors local_audits_file.criteria config_file L1 allow p.1 p.2
      (hpp2 p hp cfgI g1)).symm
  have ham2 : am2 = fetched.map
      (fun p => (p.1, peerFileD local_audits_file.criteria config_file L1 p)) := by
    have := processLoop_out local_audits_file.criteria config_file L1 allow
      fetched [] [] ch2 am2 hnd (by simp [smKeys]) hout2
    simpa using this
  have hpt : ∀ p ∈ fetched,
      eraseAuditsFile (peerFileD local_audits_file.criteria config_file L1 p)
        = eraseAuditsFile (peerFileD local_audits_file.criteria config_file imports_lock p) := by
    intro p hp
    rcases hcfg p hp with ⟨cfgI, g1⟩
    rw [peerFileD_eq_markFile local_audits_file.criteria config_file L1 p cfgI _
      g1 (hprior2 p hp), eraseAuditsFile_markFile]
    symm
    apply eraseAuditsFile_ext
    · exact peerFileD_criteria local_audits_file.criteria config_file imports_lock p cfgI g1
    · exact peerFileD_erase_audits local_audits_file.criteria config_file imports_lock p cfgI g1
    · exact peerFileD_erase_wildcards local_audits_file.criteria config_file imports_lock
        p cfgI g1
  refine ⟨{ publisher := [], audits := am2 }, ?_, ?_, ?_⟩
  · unfold process_imported_audits
    rw [hout2]
    simp only
    rw [hch2]
    rfl
  · have hfield : smMapVal eraseAuditsFile am2 = smMapVal eraseAuditsFile L1.audits := by
      rw [ham2, haud]
      simp only [smMapVal, List.map_map]
      apply List.map_congr_left
      intro p hp
      show (p.1, eraseAuditsFile (peerFileD local_audits_file.criteria config_file L1 p))
        = (p.1, eraseAuditsFile (peerFileD local_audits_file.criteria config_file
            imports_lock p))
      rw [hpt p hp]
    show ImportsFile.mk [] (smMapVal eraseAuditsFile am2)
      = ImportsFile.mk L1.publisher (smMapVal eraseAuditsFile L1.audits)
    rw [hpub, hfield]
  · intro n F hmem
    have hmem2 : (n, F) ∈ am2 := hmem
    rw [ham2] at hmem2
    rcases List.mem_map.mp hmem2 with ⟨p, hp, hpe⟩
    have hF : peerFileD local_audits_file.criteria config_file L1 p = F :=
      congrArg Prod.snd hpe
    rcases hcfg p hp with ⟨cfgI, g1⟩
    have hmark := peerFileD_eq_markFile local_audits_file.criteria config_file L1 p cfgI _
      g1 (hprior2 p hp)
    have hmf : markFile (peerFileD local_audits_file.criteria config_file imports_lock p)
        (rewriteFile local_audits_file.criteria cfgI p.2)
        = eraseAuditsFile (rewriteFile local_audits_file.criteria cfgI p.2) :=
      markFile_eq_erase _ _
        (rewriteFile_audits_keys_nodup local_audits_file.criteria cfgI p.2 (hand p hp))
        (rewriteFile_wildcards_keys_nodup local_audits_file.criteria cfgI p.2 (hwnd p hp))
        (peerFileD_erase_audits local_audits_file.criteria config_file imports_lock p cfgI g1)
        (peerFileD_erase_wildcards local_audits_file.criteria config_file imports_lock
          p cfgI g1)
        (rewriteFile_audits_fresh_mem local_audits_file.criteria cfgI p.2)
        (rewriteFile_wildcards_fresh_mem local_audits_file.criteria cfgI p.2)
    rw [← hF, hmark, hmf]
    exact allFalse_eraseAuditsFile _

/-- Witness for claim C5: the S1 run from the empty lock produces `wit_L1`,
and the second run on `wit_L1` is persisted-equal with every flag cleared. -/
theorem claim_C5_reconciliation_idempotent_witness :
    ∃ L2, process_imported_audits wit_fetched wit_localAudits wit_config wit_L1 false
        = some (Except.ok L2) ∧
      eraseImports L2 = eraseImports wit_L1 ∧
      ∀ n F, (n, F) ∈ L2.audits → allFalseFile F :=
  claim_C5_reconciliation_idempotent wit_fetched wit_localAudits wit_config wit_emptyLock
    false wit_L1 (by decide) (by decide) (by decide) (by decide)
    (by
      intro p hp cfgI hc q hq hs
      simp only [wit_fetched, List.mem_singleton] at hp
      subst hp
      have hq2 : q ∈ [("strong-reviewed", wit_strongA)] := hq
      simp only [List.mem_singleton] at hq2
      subst hq2
      decide)
    (by rfl)

end CargoVet
